import Mathlib

/-!
# Verification of the `inliner.py` header inliner

A shallow embedding of the core of `inliner.py`: the recursive header
inliner (`recursively_inline`), comment stripping (`strip_comments`),
whitespace minification (`minify_cpp_line`) and the per-marked-include
rendering logic of `process_file`.

Strings are modelled as `List Char` (named `Str` below); `str` converts a
Lean string literal into this representation.  File contents are modelled
as an association list from canonical absolute paths to file contents; the
call `os.path.abspath` is modelled as the identity on such canonical paths
(path *resolution* — `os.path.dirname` / `os.path.join` — is modelled
faithfully, since it decides which file a nested include refers to).
Python's unbounded recursion is modelled with a fuel parameter; a proved
stability theorem shows the fuel `fs.length + 1` used by the embedded
`process_file` logic is always sufficient, i.e. the recursion terminates.
-/

set_option autoImplicit false

/-- Characters treated as whitespace, matching Python's `str.strip` /
regex `\s` on ASCII text: space, tab, newline, carriage return,
vertical tab and form feed. -/
def isWS (c : Char) : Bool :=
  (c == ' ') || (c == '\t') || (c == '\n') || (c == '\r') ||
  (c == '\x0b') || (c == '\x0c')

/-- The character class `[;{}(),<>=\[\]]` from `minify_cpp_line`. -/
def isSpecial (c : Char) : Bool :=
  (c == ';') || (c == '{') || (c == '}') || (c == '(') || (c == ')') ||
  (c == ',') || (c == '<') || (c == '>') || (c == '=') || (c == '[') ||
  (c == ']')

/-- Program text, modelled as a list of characters. -/
abbrev Str : Type := List Char

/-- Conversion of a Lean string literal into the `Str` model. -/
def str (s : String) : Str := s.data

/-- Python `str.strip()`: remove leading and trailing whitespace. -/
def trimL (l : Str) : Str :=
  ((l.dropWhile isWS).reverse.dropWhile isWS).reverse

/-- `pat.isPrefixOf l`, i.e. Python `str.startswith`. -/
def startsWithL : Str → Str → Bool
  | [], _ => true
  | _ :: _, [] => false
  | p :: ps, c :: cs => p == c && startsWithL ps cs

/-- Python `str.endswith`. -/
def endsWithL (pat l : Str) : Bool :=
  startsWithL pat.reverse l.reverse

/-- Python `str.split('\n')`: every `'\n'`-separated piece, including
empty ones and the piece after a trailing newline. -/
def splitFullL : Str → List Str
  | [] => [[]]
  | c :: rest =>
    if c = '\n' then [] :: splitFullL rest
    else
      match splitFullL rest with
      | p :: ps => (c :: p) :: ps
      | [] => [[c]]

/-- Python `str.splitlines()` for newline-separated text: like splitting
on `'\n'`, but a trailing newline does not produce a final empty piece
(and the empty string has no lines). -/
def splitlinesL (s : Str) : List Str :=
  if (splitFullL s).getLast? = some [] then (splitFullL s).dropLast
  else splitFullL s

/-- Python `sep.join(...)` for a one-character separator. -/
def joinWith (sep : Char) : List Str → Str
  | [] => []
  | [l] => l
  | l :: l' :: ls => l ++ sep :: joinWith sep (l' :: ls)

/-- Python `"\n".join(...)`. -/
def joinNL (ls : List Str) : Str := joinWith '\n' ls

/-- Python `" ".join(...)`. -/
def spaceJoinL (ls : List Str) : Str := joinWith ' ' ls

/-- The non-whitespace characters of a text, in order. -/
def filterNW (l : Str) : Str := l.filter (fun c => !isWS c)

/-! ## Comment stripping (`strip_comments`)

`strip_comments` first removes block comments with
`re.sub(r'/\*.*?\*/', '', content, flags=re.DOTALL)` (leftmost,
shortest match), then line comments with `re.sub(r'//.*', '', content)`
(`.` does not match newline). -/

/-- Scan for the first occurrence of the closing delimiter of a block
comment; return the text after it. -/
def findCloseL : Str → Option Str
  | [] => none
  | [_] => none
  | c :: d :: rest => if c = '*' ∧ d = '/' then some rest else findCloseL (d :: rest)

theorem findCloseL_length : ∀ (l r : Str), findCloseL l = some r → r.length < l.length := by
  intro l
  induction l with
  | nil => intro r h; simp [findCloseL] at h
  | cons c cs ih =>
    intro r h
    cases cs with
    | nil => simp [findCloseL] at h
    | cons d rest =>
      rw [findCloseL] at h
      split at h
      · cases h
        simp only [List.length_cons]
        omega
      · have := ih r h
        simp only [List.length_cons] at this ⊢
        omega

/-- Removal of block comments `/* ... */`, leftmost shortest match, as
performed by `re.sub(r'/\*.*?\*/', '', content, flags=re.DOTALL)`.  An
opener with no later closer does not match and is kept.  The `fuel`
argument only bounds the recursion (each step consumes at least one
character, so `l.length` is always enough); at fuel `0` the rest of the
text is returned unprocessed. -/
def stripBlockGo : Nat → Str → Str
  | 0, l => l
  | _ + 1, [] => []
  | fuel + 1, '/' :: '*' :: rest =>
    match findCloseL rest with
    | some rest' => stripBlockGo fuel rest'
    | none => '/' :: '*' :: stripBlockGo fuel rest
  | fuel + 1, c :: rest => c :: stripBlockGo fuel rest

/-- Block-comment removal (see `stripBlockGo`). -/
def stripBlockL (l : Str) : Str := stripBlockGo l.length l

/-- Removal of line comments `// ...` up to (excluding) the next newline,
as performed by `re.sub(r'//.*', '', content)`; fuel as in
`stripBlockGo`. -/
def stripLineGo : Nat → Str → Str
  | 0, l => l
  | _ + 1, [] => []
  | fuel + 1, '/' :: '/' :: rest =>
    stripLineGo fuel (rest.dropWhile (fun c => c ≠ '\n'))
  | fuel + 1, c :: rest => c :: stripLineGo fuel rest

/-- Line-comment removal (see `stripLineGo`). -/
def stripLineL (l : Str) : Str := stripLineGo l.length l

/-- `strip_comments`: block comments first, then line comments. -/
def strip_commentsL (content : Str) : Str :=
  stripLineL (stripBlockL content)

/-! ## Whitespace minification (`minify_cpp_line`) -/

theorem dropWhile_lt_cons (p : Char → Bool) (c : Char) (l : List Char) :
    (List.dropWhile p l).length < (c :: l).length := by
  have := (List.dropWhile_sublist (l := l) p).length_le
  simp only [List.length_cons]
  omega

theorem dropWhile_tail_lt_cons (p : Char → Bool) (c d : Char) (rest rest' : List Char)
    (heq : (c :: rest).dropWhile p = d :: rest') :
    (List.dropWhile p rest').length < (c :: rest).length := by
  have h2 := (List.dropWhile_suffix (l := c :: rest) p).length_le
  rw [heq] at h2
  have h3 := (List.dropWhile_sublist (l := rest') p).length_le
  simp only [List.length_cons] at h2 ⊢
  omega

/-- First pass of `minify_cpp_line`: `re.sub(r'\s+', ' ', line)` —
collapse every maximal run of whitespace into a single space; fuel as in
`stripBlockGo`. -/
def collapseGo : Nat → Str → Str
  | 0, l => l
  | _ + 1, [] => []
  | fuel + 1, c :: rest =>
    if isWS c then ' ' :: collapseGo fuel (rest.dropWhile isWS)
    else c :: collapseGo fuel rest

/-- Whitespace collapsing (see `collapseGo`). -/
def collapseWsL (l : Str) : Str := collapseGo l.length l

/-- Second pass of `minify_cpp_line`:
`re.sub(r'\s*([;{}(),<>=\[\]])\s*', r'\1', minified)` — remove the
whitespace adjacent to any special character, scanning left to right; a
whitespace run is deleted exactly when a special character follows it,
and the run after a special character is deleted; fuel as in
`stripBlockGo`. -/
def minGo : Nat → Str → Str
  | 0, l => l
  | _ + 1, [] => []
  | fuel + 1, c :: rest =>
    if isSpecial c then c :: minGo fuel (rest.dropWhile isWS)
    else if isWS c then
      match (c :: rest).dropWhile isWS with
      | d :: rest' =>
        if isSpecial d then d :: minGo fuel (rest'.dropWhile isWS)
        else c :: minGo fuel rest
      | [] => c :: minGo fuel rest
    else c :: minGo fuel rest

/-- Whitespace deletion around special characters (see `minGo`). -/
def minAuxL (l : Str) : Str := minGo l.length l

/-- `minify_cpp_line`: collapse whitespace, then delete whitespace
around special characters. -/
def minifyL (line : Str) : Str := minAuxL (collapseWsL line)

/-! ## Classification and rendering (`process_file` inner loop) -/

/-- The classification loop of `process_file`: trim every line of the
comment-stripped flattened text, drop blank lines, route lines starting
with `#` to the directive list and the rest to the code list, keeping
relative order inside each list. -/
def classifyLinesL : List Str → List Str × List Str
  | [] => ([], [])
  | ln :: rest =>
    let p := classifyLinesL rest
    if trimL ln = [] then p
    else if startsWithL (str "#") (trimL ln) then (trimL ln :: p.1, p.2)
    else (p.1, trimL ln :: p.2)

/-- Specification-side view of the directive list: the trimmed non-blank
`#`-lines of a text, in order. -/
def dirsOfL (s : Str) : List Str :=
  (((splitlinesL (strip_commentsL s)).map trimL).filter
    (fun t => t ≠ [] ∧ startsWithL (str "#") t = true))

/-- Specification-side view of the code list: the trimmed non-blank
non-`#` lines of a text, in order. -/
def codesOfL (s : Str) : List Str :=
  (((splitlinesL (strip_commentsL s)).map trimL).filter
    (fun t => t ≠ [] ∧ ¬ startsWithL (str "#") t = true))

/-- The greedy wrapping loop of the `multiline` style, accumulating the
output string `w` and the current line `c` exactly as the Python loop
accumulates `wrapped_code` and `current_line`. -/
def wrapLoopL (m : Nat) : List Str → Str → Str → Str
  | [], w, c => if c ≠ [] then w ++ c else w
  | p :: ps, w, c =>
    if c = [] then wrapLoopL m ps w p
    else if c.length + p.length + 1 ≤ m then wrapLoopL m ps w (c ++ ' ' :: p)
    else wrapLoopL m ps (w ++ c ++ ['\n']) p

/-- The `multiline` wrapping of a list of minified fragments. -/
def wrapCodeL (m : Nat) (parts : List Str) : Str := wrapLoopL m parts [] []

/-- Line-list view of the greedy wrapping loop: the list of output lines
produced from the pending current line `c` and the remaining parts. -/
def wrapLinesGoL (m : Nat) : List Str → Str → List Str
  | [], c => if c = [] then [] else [c]
  | p :: ps, c =>
    if c = [] then wrapLinesGoL m ps p
    else if c.length + p.length + 1 ≤ m then wrapLinesGoL m ps (c ++ ' ' :: p)
    else c :: wrapLinesGoL m ps p

/-- The list of output lines of the `multiline` wrapping. -/
def wrapLinesL (m : Nat) (parts : List Str) : List Str := wrapLinesGoL m parts []

/-- The `final_content` assembly of `process_file`: directives joined by
newlines first, then (if there is any code) a newline and the code block
rendered according to the minify style. -/
def renderContentL (flattened : Str) (style : Str) (maxChars : Nat) : Str :=
  let noC := strip_commentsL flattened
  let p := classifyLinesL (splitlinesL noC)
  let base := joinNL p.1
  if p.2 = [] then base
  else if style = str "single_line" then
    base ++ '\n' :: spaceJoinL (p.2.map minifyL)
  else if style = str "multiline" then
    base ++ '\n' :: wrapCodeL maxChars (p.2.map minifyL)
  else base ++ '\n' :: joinNL p.2

/-- The rendered block as written between the markers:
`final_content.strip()`. -/
def renderedBlockL (flattened : Str) (style : Str) (maxChars : Nat) : Str :=
  trimL (renderContentL flattened style maxChars)

/-- Specification-side view of the lines of the rendered code block. -/
def codeBlockLinesL (codes : List Str) (style : Str) (m : Nat) : List Str :=
  if codes = [] then []
  else if style = str "single_line" then [spaceJoinL (codes.map minifyL)]
  else if style = str "multiline" then wrapLinesL m (codes.map minifyL)
  else codes

/-- The text written for one marked include site:
start marker line, `final_content.strip()`, newline, end marker line. -/
def emitBlockL (headerName : Str) (finalContent : Str) : Str :=
  str "// --- Start of inlined file: " ++ headerName ++ str " ---" ++ ['\n']
  ++ trimL finalContent ++ ['\n']
  ++ str "// --- End of inlined file: " ++ headerName ++ str " ---" ++ ['\n']

/-! ## Path resolution

`os.path.abspath` is modelled as the identity (paths in the model are
canonical absolute paths); `os.path.dirname` and `os.path.join` are the
POSIX operations on such paths. -/

/-- `os.path.dirname`: the text before the last `/`, with trailing
slashes stripped unless the result consists only of slashes. -/
def dirnameL (p : Str) : Str :=
  let head := (p.reverse.dropWhile (fun c => c ≠ '/')).reverse
  if head.all (fun c => c = '/') then head
  else (head.reverse.dropWhile (fun c => c = '/')).reverse

/-- `os.path.join dir name` for a single component: `name` if it is
absolute, otherwise `dir` and `name` separated by exactly one `/`. -/
def joinPathL (dir name : Str) : Str :=
  if startsWithL (str "/") name then name
  else if dir = [] then name
  else if endsWithL (str "/") dir then dir ++ name
  else dir ++ '/' :: name

/-! ## The recursive inliner (`recursively_inline`)

The filesystem is an association list from canonical absolute paths to
file contents.  The Python `seen_files` set, mutated across the whole
call tree, is threaded as explicit state.  The side effects are
reflected in the result: `reads` records which files were successfully
opened (in order) and `warns` records the not-found warnings printed. -/

/-- Reading a file: the first binding of the path in the filesystem. -/
def lookupFS : List (Str × Str) → Str → Option Str
  | [], _ => none
  | (p, content) :: rest, q => if p = q then some content else lookupFS rest q

/-- The message printed for a missing nested header. -/
def warnMsgL (headerPath : Str) : Str :=
  str "    [WARNING] Header not found: '" ++ headerPath
  ++ str "'. Skipping."

/-- Matching `#include "([^"]+)"` at the start of a text: the literal
opener, then a non-empty quoted name, then the closing quote. -/
def matchIncludeAtL (l : Str) : Option Str :=
  if startsWithL (str "#include \"") l then
    let after := l.drop (str "#include \"").length
    let name := after.takeWhile (fun c => c ≠ '"')
    match name, after.drop name.length with
    | [], _ => none
    | _ :: _, [] => none
    | nm, _ :: _ => some nm
  else none

/-- The nested-include test of `recursively_inline`:
`re.search(r'^\s*#include "([^"]+)"', line)` — optional leading
whitespace, then the quoted include, anything may follow. -/
def includeMatchL (line : Str) : Option Str :=
  matchIncludeAtL (line.dropWhile isWS)

/-- The marked-include search of `process_file`:
`re.search(r'#include "([^"]+)"', stripped_line)` — leftmost match
anywhere in the line. -/
def searchIncludeL : Str → Option Str
  | [] => none
  | c :: rest =>
    match matchIncludeAtL (c :: rest) with
    | some nm => some nm
    | none => searchIncludeL rest

/-- Result of `recursively_inline`: the flattened text, the final
visited set, the list of files read (in order) and the warnings. -/
structure RInline where
  text : Str
  seen : List Str
  reads : List Str
  warns : List Str
  deriving DecidableEq, Repr

/-- Result of the line-processing loop of `recursively_inline`. -/
structure RLines where
  lines : List Str
  seen : List Str
  reads : List Str
  warns : List Str
  deriving DecidableEq, Repr

/-- The line loop of `recursively_inline`, parameterised by the
recursive call `go`: a matched nested include line is replaced by the
recursive result (its text is appended in place of the whole line), a
`#pragma once` line is dropped, any other line is kept. -/
def inlineLinesGo (go : Str → List Str → RInline) (dir : Str) :
    List Str → List Str → RLines
  | [], seen => ⟨[], seen, [], []⟩
  | line :: rest, seen =>
    match includeMatchL line with
    | some name =>
      let g := go (joinPathL dir name) seen
      let r := inlineLinesGo go dir rest g.seen
      ⟨g.text :: r.lines, r.seen, g.reads ++ r.reads, g.warns ++ r.warns⟩
    | none =>
      if trimL line = str "#pragma once" then inlineLinesGo go dir rest seen
      else
        let r := inlineLinesGo go dir rest seen
        ⟨line :: r.lines, r.seen, r.reads, r.warns⟩

/-- `recursively_inline(header_path, seen_files)`, with a fuel bound on
the recursion depth (the Python recursion is unbounded; the stability
theorem shows any fuel above the number of unvisited files gives the
same result).  A path already in the visited set yields empty text; an
unreadable path yields empty text and a warning; otherwise the file's
lines are processed and joined with newlines. -/
def inlineGo (fs : List (Str × Str)) : Nat → Str → List Str → RInline
  | 0, _, seen => ⟨[], seen, [], []⟩
  | fuel + 1, headerPath, seen =>
    if headerPath ∈ seen then ⟨[], seen, [], []⟩
    else
      match lookupFS fs headerPath with
      | none => ⟨[], headerPath :: seen, [], [warnMsgL headerPath]⟩
      | some content =>
        let r := inlineLinesGo (inlineGo fs fuel) (dirnameL headerPath)
          (splitlinesL content) (headerPath :: seen)
        ⟨joinNL r.lines, r.seen, headerPath :: r.reads, r.warns⟩

/-- The number of filesystem paths not yet visited; the measure that
shrinks whenever `recursively_inline` actually opens a file. -/
def unvisited (fs : List (Str × Str)) (seen : List Str) : Nat :=
  ((fs.map Prod.fst).toFinset.filter (fun p => p ∉ seen)).card

/-- The handling of one line of the root file by `process_file`: a line
whose trimmed form starts with `#include "` and ends with `//@` is a
marked include: the quoted name is searched, the header is resolved
against the source directory, recursively inlined with a fresh visited
set, rendered, and wrapped in marker lines; any other line (and a marked
line without a quoted name) is written out unchanged.  Returns the text
written and the warnings printed. -/
def processRootLine (fs : List (Str × Str)) (sourceDir : Str)
    (style : Str) (maxChars : Nat) (line : Str) : Str × List Str :=
  let stripped := trimL line
  if startsWithL (str "#include \"") stripped ∧ endsWithL (str "//@") stripped then
    match searchIncludeL stripped with
    | none => (line ++ ['\n'], [])
    | some headerName =>
      let headerPath := joinPathL sourceDir headerName
      let r := inlineGo fs (fs.length + 1) headerPath []
      let finalContent := renderContentL r.text style maxChars
      (emitBlockL headerName finalContent, r.warns)
  else (line ++ ['\n'], [])

/-! ## Generic text lemmas -/

theorem startsWithL_append (p t : Str) : startsWithL p (p ++ t) = true := by
  induction p with
  | nil => rfl
  | cons c cs ih => simp [startsWithL, ih]

theorem startsWithL_iff (p l : Str) :
    startsWithL p l = true ↔ ∃ t, l = p ++ t := by
  constructor
  · intro h
    induction p generalizing l with
    | nil => exact ⟨l, rfl⟩
    | cons c cs ih =>
      cases l with
      | nil => simp [startsWithL] at h
      | cons d ds =>
        simp only [startsWithL, Bool.and_eq_true, beq_iff_eq] at h
        obtain ⟨t, ht⟩ := ih ds h.2
        exact ⟨t, by simp [h.1, ht]⟩
  · rintro ⟨t, rfl⟩
    exact startsWithL_append p t

theorem head?_dropWhile (p : Char → Bool) (l : Str) (c : Char)
    (h : (l.dropWhile p).head? = some c) : p c = false := by
  induction l with
  | nil => simp [List.dropWhile] at h
  | cons a rest ih =>
    by_cases hp : p a = true
    · rw [List.dropWhile_cons_of_pos hp] at h
      exact ih h
    · rw [List.dropWhile_cons_of_neg (by simpa using hp)] at h
      cases h
      simpa using hp

theorem dropWhile_eq_self_of_head? (p : Char → Bool) (l : Str)
    (h : ∀ c, l.head? = some c → p c = false) : l.dropWhile p = l := by
  cases l with
  | nil => rfl
  | cons a rest => exact List.dropWhile_cons_of_neg (by simp [h a rfl])

theorem dropWhile_append_of_all (p : Char → Bool) (a l : Str)
    (h : ∀ c ∈ a, p c = true) : (a ++ l).dropWhile p = l.dropWhile p := by
  induction a with
  | nil => rfl
  | cons c cs ih =>
    rw [List.cons_append, List.dropWhile_cons_of_pos (h c (by simp))]
    exact ih (fun d hd => h d (by simp [hd]))

theorem takeWhile_append_of_all (p : Char → Bool) (a : Str) (b : Char) (l : Str)
    (ha : ∀ c ∈ a, p c = true) (hb : p b = false) :
    (a ++ b :: l).takeWhile p = a := by
  induction a with
  | nil => simp [List.takeWhile_cons, hb]
  | cons c cs ih =>
    rw [List.cons_append, List.takeWhile_cons, ha c (by simp)]
    simp only [if_true]
    rw [ih (fun d hd => ha d (by simp [hd]))]

theorem takeWhile_eq_self_of_all (p : Char → Bool) (l : Str)
    (h : ∀ c ∈ l, p c = true) : l.takeWhile p = l := by
  induction l with
  | nil => rfl
  | cons c cs ih =>
    rw [List.takeWhile_cons, h c (by simp)]
    simp only [if_true]
    rw [ih (fun d hd => h d (by simp [hd]))]

theorem getLast?_cons_ne_nil (c : Char) (l : Str) (h : l ≠ []) :
    (c :: l).getLast? = l.getLast? := by
  have : c :: l = [c] ++ l := rfl
  rw [this, List.getLast?_append_of_ne_nil _ h]

theorem getLast?_suffix_eq (a b : Str) (hs : a <:+ b) (ha : a ≠ []) :
    a.getLast? = b.getLast? := by
  obtain ⟨t, rfl⟩ := hs
  rw [List.getLast?_append_of_ne_nil _ ha]

theorem filterNW_dropWhile (l : Str) :
    filterNW (l.dropWhile isWS) = filterNW l := by
  induction l with
  | nil => rfl
  | cons c cs ih =>
    by_cases hc : isWS c = true
    · rw [List.dropWhile_cons_of_pos hc]
      rw [ih]
      simp [filterNW, List.filter_cons, hc]
    · rw [List.dropWhile_cons_of_neg (by simpa using hc)]

/-! ## Lemmas about `trimL` -/

theorem trimL_eq_self (l : Str)
    (h1 : ∀ c, l.head? = some c → isWS c = false)
    (h2 : ∀ c, l.getLast? = some c → isWS c = false) : trimL l = l := by
  unfold trimL
  rw [dropWhile_eq_self_of_head? _ _ h1]
  rw [dropWhile_eq_self_of_head? _ _ (by
    intro c hc
    rw [List.head?_reverse] at hc
    exact h2 c hc)]
  exact List.reverse_reverse l

theorem trimL_head? (l : Str) (c : Char) (h : (trimL l).head? = some c) :
    isWS c = false := by
  unfold trimL at h
  rw [List.head?_reverse] at h
  set Y : Str := (l.dropWhile isWS).reverse with hY
  have hsfx : Y.dropWhile isWS <:+ Y := List.dropWhile_suffix isWS
  have hne : Y.dropWhile isWS ≠ [] := by
    intro hnil
    rw [hnil] at h
    simp at h
  rw [getLast?_suffix_eq _ _ hsfx hne] at h
  rw [hY, List.getLast?_reverse] at h
  exact head?_dropWhile _ _ _ h

theorem trimL_getLast? (l : Str) (c : Char) (h : (trimL l).getLast? = some c) :
    isWS c = false := by
  unfold trimL at h
  rw [List.getLast?_reverse] at h
  exact head?_dropWhile _ _ _ h

theorem trimL_subset (l : Str) (c : Char) (h : c ∈ trimL l) : c ∈ l := by
  unfold trimL at h
  rw [List.mem_reverse] at h
  have h2 := (List.dropWhile_suffix (l := (l.dropWhile isWS).reverse) isWS).subset h
  rw [List.mem_reverse] at h2
  exact (List.dropWhile_suffix isWS).subset h2

theorem trimL_nil : trimL [] = [] := rfl

/-! ## Lemmas about `splitlinesL` and `joinWith` -/

theorem joinWith_cons (sep : Char) (l : Str) (ls : List Str) (h : ls ≠ []) :
    joinWith sep (l :: ls) = l ++ sep :: joinWith sep ls := by
  cases ls with
  | nil => exact absurd rfl h
  | cons l' ls' => rfl

theorem splitFullL_ne_nil (s : Str) : splitFullL s ≠ [] := by
  induction s with
  | nil => simp [splitFullL]
  | cons c rest ih =>
    rw [splitFullL]
    by_cases hc : c = '\n'
    · simp [hc]
    · rw [if_neg hc]
      cases h : splitFullL rest with
      | nil => simp
      | cons p ps => simp

theorem splitFullL_no_nl (s : Str) : ∀ p ∈ splitFullL s, '\n' ∉ p := by
  induction s with
  | nil => simp [splitFullL]
  | cons c rest ih =>
    rw [splitFullL]
    by_cases hc : c = '\n'
    · rw [if_pos hc]
      intro p hp
      rcases List.mem_cons.1 hp with h | h
      · simp [h]
      · exact ih p h
    · rw [if_neg hc]
      cases h : splitFullL rest with
      | nil =>
        intro p hp
        simp at hp
        subst hp
        simp only [List.mem_singleton]
        exact fun h2 => hc h2.symm
      | cons q qs =>
        intro p hp
        rcases List.mem_cons.1 hp with h1 | h1
        · subst h1
          intro hmem
          rcases List.mem_cons.1 hmem with h2 | h2
          · exact hc h2.symm
          · exact ih q (by simp [h]) h2
        · exact ih p (by simp [h, h1])

theorem splitFullL_of_no_nl (s : Str) (h : '\n' ∉ s) : splitFullL s = [s] := by
  induction s with
  | nil => rfl
  | cons c rest ih =>
    rw [splitFullL, if_neg (by intro hc; exact h (by simp [hc]))]
    rw [ih (by intro hm; exact h (by simp [hm]))]

theorem splitFullL_append (a t : Str) (ha : '\n' ∉ a) :
    splitFullL (a ++ '\n' :: t) = a :: splitFullL t := by
  induction a with
  | nil => simp [splitFullL]
  | cons c rest ih =>
    rw [List.cons_append, splitFullL,
      if_neg (by intro hc; exact ha (by simp [hc]))]
    rw [ih (by intro hm; exact ha (by simp [hm]))]

theorem splitFullL_joinNL (ls : List Str) (hls : ls ≠ [])
    (h : ∀ l ∈ ls, '\n' ∉ l) : splitFullL (joinNL ls) = ls := by
  induction ls with
  | nil => exact absurd rfl hls
  | cons l rest ih =>
    cases rest with
    | nil => exact splitFullL_of_no_nl l (h l (by simp))
    | cons l' rest' =>
      have hjoin : joinNL (l :: l' :: rest') = l ++ '\n' :: joinNL (l' :: rest') := by
        rw [joinNL, joinWith_cons _ _ _ (by simp)]
        rfl
      rw [hjoin, splitFullL_append _ _ (h l (by simp))]
      rw [ih (by simp) (fun x hx => h x (by simp [hx]))]

theorem splitlinesL_joinNL (ls : List Str)
    (h : ∀ l ∈ ls, l ≠ [] ∧ '\n' ∉ l) : splitlinesL (joinNL ls) = ls := by
  cases ls with
  | nil => rfl
  | cons l rest =>
    unfold splitlinesL
    rw [splitFullL_joinNL _ (by simp) (fun x hx => (h x hx).2)]
    rw [if_neg (by
      intro hlast
      have hmem := List.mem_of_mem_getLast? hlast
      exact (h _ hmem).1 rfl)]

theorem splitlinesL_single (l : Str) (h : l ≠ []) (hn : '\n' ∉ l) :
    splitlinesL l = [l] := by
  have := splitlinesL_joinNL [l] (by simp [h, hn])
  simpa [joinNL, joinWith] using this

theorem splitlinesL_no_nl (s : Str) : ∀ p ∈ splitlinesL s, '\n' ∉ p := by
  intro p hp
  unfold splitlinesL at hp
  split at hp
  · exact splitFullL_no_nl s p (List.dropLast_subset _ hp)
  · exact splitFullL_no_nl s p hp

theorem filterNW_joinWith (sep : Char) (hsep : isWS sep = true) (ls : List Str) :
    filterNW (joinWith sep ls) = (ls.map filterNW).join := by
  induction ls with
  | nil => rfl
  | cons l rest ih =>
    cases rest with
    | nil => simp [joinWith, filterNW]
    | cons l' rest' =>
      rw [joinWith_cons _ _ _ (by simp)]
      show filterNW (l ++ sep :: joinWith sep (l' :: rest')) = _
      rw [filterNW, List.filter_append, List.filter_cons]
      simp only [hsep, Bool.not_true]
      rw [show (List.filter (fun c => !isWS c) (joinWith sep (l' :: rest')))
        = filterNW (joinWith sep (l' :: rest')) from rfl, ih]
      simp [filterNW]

theorem joinWith_head? (sep : Char) (l : Str) (ls : List Str) (hl : l ≠ []) :
    (joinWith sep (l :: ls)).head? = l.head? := by
  cases ls with
  | nil => rfl
  | cons l' rest =>
    rw [joinWith_cons _ _ _ (by simp)]
    cases l with
    | nil => exact absurd rfl hl
    | cons c cs => rfl

theorem joinWith_ne_nil (sep : Char) (ls : List Str)
    (h : ∀ l ∈ ls, l ≠ []) (hne : ls ≠ []) : joinWith sep ls ≠ [] := by
  cases ls with
  | nil => exact absurd rfl hne
  | cons l rest =>
    cases rest with
    | nil => exact h l (by simp)
    | cons l' rest' =>
      rw [joinWith_cons _ _ _ (by simp)]
      simp

theorem joinWith_getLast? (sep : Char) (ls : List Str)
    (h : ∀ l ∈ ls, l ≠ []) (hne : ls ≠ []) :
    (joinWith sep ls).getLast? = (ls.getLast hne).getLast? := by
  induction ls with
  | nil => exact absurd rfl hne
  | cons l rest ih =>
    cases rest with
    | nil => rfl
    | cons l' rest' =>
      rw [joinWith_cons _ _ _ (by simp)]
      rw [List.getLast?_append_of_ne_nil _ (by simp)]
      rw [getLast?_cons_ne_nil _ _
        (joinWith_ne_nil sep _ (fun x hx => h x (by simp [hx])) (by simp))]
      rw [ih (fun x hx => h x (by simp [hx])) (by simp)]
      rw [show (l :: l' :: rest').getLast hne = (l' :: rest').getLast (by simp)
        from List.getLast_cons _]

/-! ## Trimmed-ends predicates -/

/-- The first character, if any, is not whitespace. -/
def HeadNW (l : Str) : Prop := ∀ c, l.head? = some c → isWS c = false

/-- The last character, if any, is not whitespace. -/
def EndsNW (l : Str) : Prop := ∀ c, l.getLast? = some c → isWS c = false

theorem isSpecial_not_ws (c : Char) (h : isSpecial c = true) : isWS c = false := by
  simp only [isSpecial, Bool.or_eq_true, beq_iff_eq] at h
  rcases h with ((((((((((h | h) | h) | h) | h) | h) | h) | h) | h) | h) | h) <;>
    subst h <;> decide

theorem EndsNW_nil : EndsNW [] := by
  intro c hc
  simp at hc

theorem EndsNW_of_cons (c : Char) (rest : Str) (h : EndsNW (c :: rest))
    (hne : rest ≠ []) : EndsNW rest := by
  intro d hd
  exact h d (by rw [getLast?_cons_ne_nil _ _ hne]; exact hd)

theorem EndsNW_suffix (a b : Str) (hs : a <:+ b) (hne : a ≠ [])
    (hb : EndsNW b) : EndsNW a := by
  intro c hc
  exact hb c (by rw [← getLast?_suffix_eq a b hs hne]; exact hc)

theorem getLast?_some_of_ne_nil (l : Str) (h : l ≠ []) :
    ∃ c, l.getLast? = some c := by
  cases hl : l.getLast? with
  | none => exact absurd (List.getLast?_eq_none_iff.1 hl) h
  | some c => exact ⟨c, rfl⟩

theorem dropWhile_ne_nil_of_EndsNW (l : Str) (h : EndsNW l) (hne : l ≠ []) :
    l.dropWhile isWS ≠ [] := by
  intro hnil
  have hall := List.dropWhile_eq_nil_iff.1 hnil
  obtain ⟨c, hc⟩ := getLast?_some_of_ne_nil l hne
  have hmem := List.mem_of_mem_getLast? hc
  have := h c hc
  rw [hall c hmem] at this
  cases this

theorem trimL_eq_self_of_NW (l : Str) (h1 : HeadNW l) (h2 : EndsNW l) :
    trimL l = l := trimL_eq_self l h1 h2

/-! ## Lemmas about `classifyLinesL` -/

theorem classifyLinesL_eq (ls : List Str) :
    classifyLinesL ls =
      ((ls.map trimL).filter (fun t => t ≠ [] ∧ startsWithL (str "#") t = true),
       (ls.map trimL).filter (fun t => t ≠ [] ∧ ¬ startsWithL (str "#") t = true)) := by
  induction ls with
  | nil => rfl
  | cons ln rest ih =>
    rw [classifyLinesL, ih]
    simp only [List.map_cons, List.filter_cons]
    by_cases h0 : trimL ln = []
    · simp [h0]
    · by_cases h1 : startsWithL (str "#") (trimL ln) = true
      · simp [h0, h1]
      · simp [h0, h1]

/-! ## Lemmas about `minifyL` -/

theorem collapseGo_nil (fuel : Nat) : collapseGo fuel [] = [] := by
  cases fuel <;> rfl

theorem minGo_nil (fuel : Nat) : minGo fuel [] = [] := by
  cases fuel <;> rfl

theorem collapseGo_ne_nil (fuel : Nat) (l : Str) (h : l ≠ []) :
    collapseGo fuel l ≠ [] := by
  cases fuel with
  | zero => exact h
  | succ n =>
    cases l with
    | nil => exact absurd rfl h
    | cons c rest =>
      rw [collapseGo]
      split <;> simp

theorem minGo_ne_nil (fuel : Nat) (l : Str) (h : l ≠ []) :
    minGo fuel l ≠ [] := by
  cases fuel with
  | zero => exact h
  | succ n =>
    cases l with
    | nil => exact absurd rfl h
    | cons c rest =>
      rw [minGo]
      by_cases h1 : isSpecial c = true
      · simp [h1]
      · rw [if_neg h1]
        by_cases h2 : isWS c = true
        · rw [if_pos h2]
          cases hdw : (c :: rest).dropWhile isWS with
          | nil => simp
          | cons d rest' =>
            by_cases h3 : isSpecial d = true
            · simp [h3]
            · simp [h3]
        · rw [if_neg h2]
          simp

theorem filterNW_collapseGo (fuel : Nat) : ∀ (l : Str), l.length ≤ fuel →
    filterNW (collapseGo fuel l) = filterNW l := by
  induction fuel with
  | zero => intro l _; rfl
  | succ n ih =>
    intro l hlen
    cases l with
    | nil => rfl
    | cons c rest =>
      rw [collapseGo]
      by_cases hc : isWS c = true
      · rw [if_pos hc]
        have hlen2 : (rest.dropWhile isWS).length ≤ n := by
          have := (List.dropWhile_sublist (l := rest) isWS).length_le
          simp only [List.length_cons] at hlen
          omega
        rw [show filterNW (' ' :: collapseGo n (rest.dropWhile isWS))
            = filterNW (collapseGo n (rest.dropWhile isWS)) by
          simp [filterNW, List.filter_cons, isWS]]
        rw [ih _ hlen2, filterNW_dropWhile]
        simp [filterNW, List.filter_cons, hc]
      · rw [if_neg hc]
        simp only [List.length_cons] at hlen
        rw [show filterNW (c :: collapseGo n rest)
            = c :: filterNW (collapseGo n rest) by
          simp [filterNW, List.filter_cons, hc]]
        rw [ih _ (by omega)]
        simp [filterNW, List.filter_cons, hc]

theorem filterNW_minGo (fuel : Nat) : ∀ (l : Str), l.length ≤ fuel →
    filterNW (minGo fuel l) = filterNW l := by
  induction fuel with
  | zero => intro l _; rfl
  | succ n ih =>
    intro l hlen
    cases l with
    | nil => rfl
    | cons c rest =>
      simp only [List.length_cons] at hlen
      have hrest : rest.length ≤ n := by omega
      have hdwlen : (rest.dropWhile isWS).length ≤ n := by
        have := (List.dropWhile_sublist (l := rest) isWS).length_le
        omega
      rw [minGo]
      by_cases h1 : isSpecial c = true
      · rw [if_pos h1]
        rw [show filterNW (c :: minGo n (rest.dropWhile isWS))
            = c :: filterNW (minGo n (rest.dropWhile isWS)) by
          simp [filterNW, List.filter_cons, isSpecial_not_ws c h1]]
        rw [ih _ hdwlen, filterNW_dropWhile]
        simp [filterNW, List.filter_cons, isSpecial_not_ws c h1]
      · rw [if_neg h1]
        by_cases h2 : isWS c = true
        · rw [if_pos h2]
          cases hdw : (c :: rest).dropWhile isWS with
          | nil =>
            rw [show filterNW (c :: minGo n rest)
                = filterNW (minGo n rest) by
              simp [filterNW, List.filter_cons, h2]]
            rw [ih _ hrest]
            simp [filterNW, List.filter_cons, h2]
          | cons d rest' =>
            dsimp only
            by_cases h3 : isSpecial d = true
            · rw [if_pos h3]
              have hsub : (rest'.dropWhile isWS).length ≤ n := by
                have hsfx := (List.dropWhile_suffix (l := c :: rest) isWS).length_le
                rw [hdw] at hsfx
                have := (List.dropWhile_sublist (l := rest') isWS).length_le
                simp only [List.length_cons] at hsfx
                omega
              rw [show filterNW (d :: minGo n (rest'.dropWhile isWS))
                  = d :: filterNW (minGo n (rest'.dropWhile isWS)) by
                simp [filterNW, List.filter_cons, isSpecial_not_ws d h3]]
              rw [ih _ hsub, filterNW_dropWhile]
              have hfw : filterNW (c :: rest) = filterNW (d :: rest') := by
                rw [← hdw]
                rw [show filterNW (c :: rest) = filterNW ((c :: rest).dropWhile isWS) by
                  rw [filterNW_dropWhile]]
              rw [hfw]
              simp [filterNW, List.filter_cons, isSpecial_not_ws d h3]
            · rw [if_neg h3]
              rw [show filterNW (c :: minGo n rest) = filterNW (minGo n rest) by
                simp [filterNW, List.filter_cons, h2]]
              rw [ih _ hrest]
              simp [filterNW, List.filter_cons, h2]
        · rw [if_neg h2]
          rw [show filterNW (c :: minGo n rest) = c :: filterNW (minGo n rest) by
            simp [filterNW, List.filter_cons, h2]]
          rw [ih _ hrest]
          simp [filterNW, List.filter_cons, h2]

theorem filterNW_minifyL (l : Str) : filterNW (minifyL l) = filterNW l := by
  unfold minifyL minAuxL collapseWsL
  rw [filterNW_minGo _ _ (le_refl _), filterNW_collapseGo _ _ (le_refl _)]

theorem collapseGo_mem (fuel : Nat) : ∀ (l : Str) (c : Char),
    c ∈ collapseGo fuel l → c ∈ l ∨ c = ' ' := by
  induction fuel with
  | zero => intro l c hc; exact Or.inl hc
  | succ n ih =>
    intro l c hc
    cases l with
    | nil => exact Or.inl hc
    | cons a rest =>
      rw [collapseGo] at hc
      by_cases ha : isWS a = true
      · rw [if_pos ha] at hc
        rcases List.mem_cons.1 hc with h | h
        · exact Or.inr h
        · rcases ih _ _ h with h2 | h2
          · exact Or.inl (by
              have := (List.dropWhile_sublist (l := rest) isWS).subset h2
              simp [this])
          · exact Or.inr h2
      · rw [if_neg ha] at hc
        rcases List.mem_cons.1 hc with h | h
        · exact Or.inl (by simp [h])
        · rcases ih _ _ h with h2 | h2
          · exact Or.inl (by simp [h2])
          · exact Or.inr h2

theorem minGo_mem (fuel : Nat) : ∀ (l : Str) (c : Char),
    c ∈ minGo fuel l → c ∈ l := by
  induction fuel with
  | zero => intro l c hc; exact hc
  | succ n ih =>
    intro l c hc
    cases l with
    | nil => exact hc
    | cons a rest =>
      rw [minGo] at hc
      by_cases h1 : isSpecial a = true
      · rw [if_pos h1] at hc
        rcases List.mem_cons.1 hc with h | h
        · simp [h]
        · have := (List.dropWhile_sublist (l := rest) isWS).subset (ih _ _ h)
          simp [this]
      · rw [if_neg h1] at hc
        by_cases h2 : isWS a = true
        · rw [if_pos h2] at hc
          rcases hdw : (a :: rest).dropWhile isWS with _ | ⟨d, rest'⟩
          · rw [hdw] at hc
            dsimp only at hc
            rcases List.mem_cons.1 hc with h | h
            · simp [h]
            · simp [ih _ _ h]
          · rw [hdw] at hc
            dsimp only at hc
            by_cases h3 : isSpecial d = true
            · rw [if_pos h3] at hc
              have hsub : c ∈ d :: rest' → c ∈ a :: rest := by
                intro hmem
                rw [← hdw] at hmem
                exact (List.dropWhile_suffix isWS).subset hmem
              rcases List.mem_cons.1 hc with h | h
              · exact hsub (by simp [h])
              · have := (List.dropWhile_sublist (l := rest') isWS).subset (ih _ _ h)
                exact hsub (by simp [this])
            · rw [if_neg h3] at hc
              rcases List.mem_cons.1 hc with h | h
              · simp [h]
              · simp [ih _ _ h]
        · rw [if_neg h2] at hc
          rcases List.mem_cons.1 hc with h | h
          · simp [h]
          · simp [ih _ _ h]

theorem minifyL_no_nl (l : Str) (h : '\n' ∉ l) : '\n' ∉ minifyL l := by
  intro hmem
  unfold minifyL minAuxL collapseWsL at hmem
  have h1 := minGo_mem _ _ _ hmem
  rcases collapseGo_mem _ _ _ h1 with h2 | h2
  · exact h h2
  · cases h2

theorem minifyL_ne_nil (l : Str) (h : filterNW l ≠ []) : minifyL l ≠ [] := by
  intro hnil
  have := filterNW_minifyL l
  rw [hnil] at this
  exact h (by simpa [filterNW] using this.symm)

theorem HeadNW_collapseGo (fuel : Nat) (l : Str) (h : HeadNW l) :
    HeadNW (collapseGo fuel l) := by
  cases fuel with
  | zero => exact h
  | succ n =>
    cases l with
    | nil => exact h
    | cons c rest =>
      have hc : isWS c = false := h c rfl
      rw [collapseGo, if_neg (by simp [hc])]
      intro d hd
      cases hd
      exact hc

theorem HeadNW_minGo (fuel : Nat) (l : Str) (h : HeadNW l) :
    HeadNW (minGo fuel l) := by
  cases fuel with
  | zero => exact h
  | succ n =>
    cases l with
    | nil => exact h
    | cons c rest =>
      have hc : isWS c = false := h c rfl
      rw [minGo]
      by_cases h1 : isSpecial c = true
      · rw [if_pos h1]
        intro d hd
        cases hd
        exact hc
      · rw [if_neg h1, if_neg (by simp [hc])]
        intro d hd
        cases hd
        exact hc

theorem EndsNW_collapseGo (fuel : Nat) : ∀ (l : Str), l.length ≤ fuel →
    EndsNW l → EndsNW (collapseGo fuel l) := by
  induction fuel with
  | zero => intro l _ h; exact h
  | succ n ih =>
    intro l hlen h
    cases l with
    | nil => exact h
    | cons c rest =>
      simp only [List.length_cons] at hlen
      rw [collapseGo]
      by_cases hc : isWS c = true
      · rw [if_pos hc]
        by_cases hrne : rest = []
        · subst hrne
          exact absurd (h c (by simp)) (by simp [hc])
        · have hE : EndsNW rest := EndsNW_of_cons c rest h hrne
          have hXne : rest.dropWhile isWS ≠ [] :=
            dropWhile_ne_nil_of_EndsNW rest hE hrne
          have hEX : EndsNW (rest.dropWhile isWS) :=
            EndsNW_suffix _ _ (List.dropWhile_suffix isWS) hXne hE
          have hlen2 : (rest.dropWhile isWS).length ≤ n := by
            have := (List.dropWhile_sublist (l := rest) isWS).length_le
            omega
          have hY := ih _ hlen2 hEX
          have hYne : collapseGo n (rest.dropWhile isWS) ≠ [] :=
            collapseGo_ne_nil n _ hXne
          intro d hd
          rw [getLast?_cons_ne_nil _ _ hYne] at hd
          exact hY d hd
      · rw [if_neg hc]
        by_cases hrne : rest = []
        · subst hrne
          rw [collapseGo_nil]
          intro d hd
          simp at hd
          subst hd
          exact eq_false_of_ne_true hc
        · have hE : EndsNW rest := EndsNW_of_cons c rest h hrne
          have hY := ih rest (by omega) hE
          have hYne : collapseGo n rest ≠ [] := collapseGo_ne_nil n _ hrne
          intro d hd
          rw [getLast?_cons_ne_nil _ _ hYne] at hd
          exact hY d hd

theorem EndsNW_minGo (fuel : Nat) : ∀ (l : Str), l.length ≤ fuel →
    EndsNW l → EndsNW (minGo fuel l) := by
  induction fuel with
  | zero => intro l _ h; exact h
  | succ n ih =>
    intro l hlen h
    cases l with
    | nil => exact h
    | cons c rest =>
      simp only [List.length_cons] at hlen
      rw [minGo]
      by_cases h1 : isSpecial c = true
      · rw [if_pos h1]
        cases hX : rest.dropWhile isWS with
        | nil =>
          rw [minGo_nil]
          intro d hd
          simp at hd
          subst hd
          exact isSpecial_not_ws _ h1
        | cons x xs =>
          have hXne : rest.dropWhile isWS ≠ [] := by rw [hX]; simp
          have hrne : rest ≠ [] := by
            intro hr
            rw [hr] at hX
            simp at hX
          have hE : EndsNW rest := EndsNW_of_cons c rest h hrne
          have hEX : EndsNW (rest.dropWhile isWS) :=
            EndsNW_suffix _ _ (List.dropWhile_suffix isWS) hXne hE
          have hlen2 : (rest.dropWhile isWS).length ≤ n := by
            have := (List.dropWhile_sublist (l := rest) isWS).length_le
            omega
          have hY := ih _ hlen2 hEX
          have hYne : minGo n (rest.dropWhile isWS) ≠ [] := minGo_ne_nil n _ hXne
          rw [hX] at hY hYne
          intro e he
          rw [getLast?_cons_ne_nil _ _ hYne] at he
          exact hY e he
      · rw [if_neg h1]
        by_cases h2 : isWS c = true
        · rw [if_pos h2]
          cases hdw : (c :: rest).dropWhile isWS with
          | nil =>
            dsimp only
            have hall := List.dropWhile_eq_nil_iff.1 hdw
            obtain ⟨e, he⟩ := getLast?_some_of_ne_nil (c :: rest) (by simp)
            have hmem := List.mem_of_mem_getLast? he
            exact absurd (h e he) (by simp [hall e hmem])
          | cons d rest' =>
            dsimp only
            have hsfx : d :: rest' <:+ c :: rest := hdw ▸ List.dropWhile_suffix isWS
            have hEd : EndsNW (d :: rest') :=
              EndsNW_suffix _ _ hsfx (by simp) h
            by_cases h3 : isSpecial d = true
            · rw [if_pos h3]
              cases hX : rest'.dropWhile isWS with
              | nil =>
                rw [minGo_nil]
                intro e he
                simp at he
                subst he
                exact isSpecial_not_ws _ h3
              | cons x xs =>
                have hXne : rest'.dropWhile isWS ≠ [] := by rw [hX]; simp
                have hrne : rest' ≠ [] := by
                  intro hr
                  rw [hr] at hX
                  simp at hX
                have hE : EndsNW rest' := EndsNW_of_cons d rest' hEd hrne
                have hEX : EndsNW (rest'.dropWhile isWS) :=
                  EndsNW_suffix _ _ (List.dropWhile_suffix isWS) hXne hE
                have hlen2 : (rest'.dropWhile isWS).length ≤ n := by
                  have ha := hsfx.length_le
                  have := (List.dropWhile_sublist (l := rest') isWS).length_le
                  simp only [List.length_cons] at ha
                  omega
                have hY := ih _ hlen2 hEX
                have hYne : minGo n (rest'.dropWhile isWS) ≠ [] := minGo_ne_nil n _ hXne
                rw [hX] at hY hYne
                intro e he
                rw [getLast?_cons_ne_nil _ _ hYne] at he
                exact hY e he
            · rw [if_neg h3]
              by_cases hrne : rest = []
              · subst hrne
                exact absurd (h c (by simp)) (by simp [h2])
              · have hE : EndsNW rest := EndsNW_of_cons c rest h hrne
                have hY := ih rest (by omega) hE
                have hYne : minGo n rest ≠ [] := minGo_ne_nil n _ hrne
                intro e he
                rw [getLast?_cons_ne_nil _ _ hYne] at he
                exact hY e he
        · rw [if_neg h2]
          by_cases hrne : rest = []
          · subst hrne
            rw [minGo_nil]
            intro e he
            simp at he
            subst he
            exact eq_false_of_ne_true h2
          · have hE : EndsNW rest := EndsNW_of_cons c rest h hrne
            have hY := ih rest (by omega) hE
            have hYne : minGo n rest ≠ [] := minGo_ne_nil n _ hrne
            intro e he
            rw [getLast?_cons_ne_nil _ _ hYne] at he
            exact hY e he

theorem HeadNW_minifyL (l : Str) (h : HeadNW l) : HeadNW (minifyL l) :=
  HeadNW_minGo _ _ (HeadNW_collapseGo _ _ h)

theorem EndsNW_minifyL (l : Str) (h : EndsNW l) : EndsNW (minifyL l) := by
  unfold minifyL minAuxL collapseWsL
  exact EndsNW_minGo _ _ (le_refl _) (EndsNW_collapseGo _ _ (le_refl _) h)

/-! ## Lemmas about the `multiline` wrapping -/

theorem joinWith_append_single (sep : Char) (ls : List Str) (x : Str) (h : ls ≠ []) :
    joinWith sep (ls ++ [x]) = joinWith sep ls ++ sep :: x := by
  induction ls with
  | nil => exact absurd rfl h
  | cons l rest ih =>
    cases rest with
    | nil => rfl
    | cons l' rest' =>
      rw [List.cons_append, joinWith_cons _ _ _ (by simp),
        joinWith_cons _ _ _ (by simp), ih (by simp)]
      simp

theorem mem_joinWith (sep : Char) (ls : List Str) (c : Char)
    (h : c ∈ joinWith sep ls) : c = sep ∨ ∃ l ∈ ls, c ∈ l := by
  induction ls with
  | nil => cases h
  | cons l rest ih =>
    cases rest with
    | nil =>
      right
      exact ⟨l, by simp, h⟩
    | cons l' rest' =>
      rw [joinWith_cons _ _ _ (by simp)] at h
      rcases List.mem_append.1 h with h1 | h1
      · right
        exact ⟨l, by simp, h1⟩
      · rcases List.mem_cons.1 h1 with h2 | h2
        · exact Or.inl h2
        · rcases ih h2 with h3 | ⟨x, hx, hcx⟩
          · exact Or.inl h3
          · exact Or.inr ⟨x, by simp [hx], hcx⟩

theorem wrapLinesGoL_ne_nil (m : Nat) : ∀ (parts : List Str) (c : Str),
    c ≠ [] → wrapLinesGoL m parts c ≠ [] := by
  intro parts
  induction parts with
  | nil =>
    intro c hc
    rw [wrapLinesGoL, if_neg hc]
    simp
  | cons p ps ih =>
    intro c hc
    rw [wrapLinesGoL, if_neg hc]
    by_cases hlen : c.length + p.length + 1 ≤ m
    · rw [if_pos hlen]
      exact ih _ (by simp)
    · rw [if_neg hlen]
      simp

theorem wrapLoopL_eq_joinNL (m : Nat) : ∀ (parts : List Str) (w c : Str),
    c ≠ [] → (∀ p ∈ parts, p ≠ []) →
    wrapLoopL m parts w c = w ++ joinNL (wrapLinesGoL m parts c) := by
  intro parts
  induction parts with
  | nil =>
    intro w c hc _
    rw [wrapLoopL, wrapLinesGoL, if_pos hc, if_neg hc]
    rfl
  | cons p ps ih =>
    intro w c hc hps
    rw [wrapLoopL, wrapLinesGoL, if_neg hc, if_neg hc]
    by_cases hlen : c.length + p.length + 1 ≤ m
    · rw [if_pos hlen, if_pos hlen]
      exact ih _ _ (by simp) (fun x hx => hps x (by simp [hx]))
    · rw [if_neg hlen, if_neg hlen]
      rw [ih _ _ (hps p (by simp)) (fun x hx => hps x (by simp [hx]))]
      simp only [joinNL]
      rw [joinWith_cons _ _ _
        (wrapLinesGoL_ne_nil m ps p (hps p (by simp)))]
      simp

theorem wrapCodeL_eq_joinNL (m : Nat) (parts : List Str)
    (h : ∀ p ∈ parts, p ≠ []) :
    wrapCodeL m parts = joinNL (wrapLinesL m parts) := by
  cases parts with
  | nil => rfl
  | cons p ps =>
    rw [wrapCodeL, wrapLinesL, wrapLoopL, wrapLinesGoL, if_pos rfl, if_pos rfl]
    rw [wrapLoopL_eq_joinNL m ps [] p (h p (by simp)) (fun x hx => h x (by simp [hx]))]
    rfl

theorem wrapLinesGoL_bound (m : Nat) : ∀ (parts : List Str) (c : Str) (P : List Str),
    (c = [] ∨ c.length ≤ m ∨ c ∈ P) → (∀ p ∈ parts, p ∈ P) →
    ∀ line ∈ wrapLinesGoL m parts c, line.length ≤ m ∨ line ∈ P := by
  intro parts
  induction parts with
  | nil =>
    intro c P hc _ line hline
    rw [wrapLinesGoL] at hline
    by_cases h0 : c = []
    · rw [if_pos h0] at hline
      cases hline
    · rw [if_neg h0] at hline
      rcases List.mem_singleton.1 hline with rfl
      rcases hc with h1 | h1 | h1
      · exact absurd h1 h0
      · exact Or.inl h1
      · exact Or.inr h1
  | cons p ps ih =>
    intro c P hc hP line hline
    rw [wrapLinesGoL] at hline
    by_cases h0 : c = []
    · rw [if_pos h0] at hline
      exact ih p P (Or.inr (Or.inr (hP p (by simp)))) (fun x hx => hP x (by simp [hx]))
        line hline
    · rw [if_neg h0] at hline
      by_cases hlen : c.length + p.length + 1 ≤ m
      · rw [if_pos hlen] at hline
        refine ih _ P (Or.inr (Or.inl ?_)) (fun x hx => hP x (by simp [hx])) line hline
        simp only [List.length_append, List.length_cons]
        omega
      · rw [if_neg hlen] at hline
        rcases List.mem_cons.1 hline with h1 | h1
        · subst h1
          rcases hc with h2 | h2 | h2
          · exact absurd h2 h0
          · exact Or.inl h2
          · exact Or.inr h2
        · exact ih p P (Or.inr (Or.inr (hP p (by simp))))
            (fun x hx => hP x (by simp [hx])) line h1

theorem wrapLinesGoL_chunks (m : Nat) : ∀ (parts : List Str) (chunk : List Str),
    chunk ≠ [] → (∀ x ∈ chunk, x ≠ []) → (∀ p ∈ parts, p ≠ []) →
    ∃ chunks : List (List Str),
      (∀ ch ∈ chunks, ch ≠ [] ∧ ∀ x ∈ ch, x ≠ []) ∧
      chunks.join = chunk ++ parts ∧
      wrapLinesGoL m parts (spaceJoinL chunk) = chunks.map spaceJoinL := by
  intro parts
  induction parts with
  | nil =>
    intro chunk hch hxs _
    refine ⟨[chunk], ?_, by simp, ?_⟩
    · intro ch hc2
      rcases List.mem_singleton.1 hc2 with rfl
      exact ⟨hch, hxs⟩
    · rw [wrapLinesGoL,
        if_neg (show ¬ spaceJoinL chunk = [] from joinWith_ne_nil ' ' chunk hxs hch)]
      simp
  | cons p ps ih =>
    intro chunk hch hxs hps
    have hc : spaceJoinL chunk ≠ [] := joinWith_ne_nil ' ' chunk hxs hch
    rw [wrapLinesGoL, if_neg hc]
    by_cases hlen : (spaceJoinL chunk).length + p.length + 1 ≤ m
    · rw [if_pos hlen]
      have hsp : spaceJoinL chunk ++ ' ' :: p = spaceJoinL (chunk ++ [p]) :=
        (joinWith_append_single ' ' chunk p hch).symm
      rw [hsp]
      obtain ⟨chunks, hprops, hjoin, heq⟩ := ih (chunk ++ [p]) (by simp)
        (by
          intro x hx
          rcases List.mem_append.1 hx with h1 | h1
          · exact hxs x h1
          · rcases List.mem_singleton.1 h1 with rfl
            exact hps x (by simp))
        (fun x hx => hps x (by simp [hx]))
      exact ⟨chunks, hprops, by rw [hjoin]; simp, heq⟩
    · rw [if_neg hlen]
      have hp : p ≠ [] := hps p (by simp)
      obtain ⟨chunks, hprops, hjoin, heq⟩ := ih [p] (by simp)
        (by intro x hx; rcases List.mem_singleton.1 hx with rfl; exact hp)
        (fun x hx => hps x (by simp [hx]))
      refine ⟨chunk :: chunks, ?_, ?_, ?_⟩
      · intro ch hc2
        rcases List.mem_cons.1 hc2 with h1 | h1
        · subst h1
          exact ⟨hch, hxs⟩
        · exact hprops ch h1
      · rw [show (chunk :: chunks).join = chunk ++ chunks.join from rfl, hjoin]
        simp
      · rw [List.map_cons, ← heq]
        congr 1

theorem wrapLinesL_chunks (m : Nat) (parts : List Str)
    (h : ∀ p ∈ parts, p ≠ []) :
    ∃ chunks : List (List Str),
      (∀ ch ∈ chunks, ch ≠ [] ∧ ∀ x ∈ ch, x ≠ []) ∧
      chunks.join = parts ∧
      wrapLinesL m parts = chunks.map spaceJoinL := by
  cases parts with
  | nil => exact ⟨[], by simp, by simp, rfl⟩
  | cons p ps =>
    rw [wrapLinesL, wrapLinesGoL, if_pos rfl]
    exact wrapLinesGoL_chunks m ps [p] (by simp)
      (by intro x hx; rcases List.mem_singleton.1 hx with rfl; exact h x (by simp))
      (fun x hx => h x (by simp [hx]))

/-! ## Properties of the classified lines -/

theorem HeadNW_trimL (l : Str) : HeadNW (trimL l) := fun c hc => trimL_head? l c hc

theorem EndsNW_trimL (l : Str) : EndsNW (trimL l) := fun c hc => trimL_getLast? l c hc

/-- The four line invariants every classified (trimmed, non-blank) line
enjoys: non-empty, newline-free, and whitespace-free at both ends. -/
def GoodLine (t : Str) : Prop := t ≠ [] ∧ '\n' ∉ t ∧ HeadNW t ∧ EndsNW t

theorem mem_trimmed_filter (s : Str) (p : Str → Prop) [DecidablePred p] (t : Str)
    (h : t ∈ ((splitlinesL (strip_commentsL s)).map trimL).filter
      (fun t => t ≠ [] ∧ p t)) : GoodLine t ∧ p t := by
  rw [List.mem_filter] at h
  obtain ⟨hmem, hpred⟩ := h
  rw [List.mem_map] at hmem
  obtain ⟨ln, hln, rfl⟩ := hmem
  simp only [decide_eq_true_eq] at hpred
  refine ⟨⟨hpred.1, ?_, HeadNW_trimL ln, EndsNW_trimL ln⟩, hpred.2⟩
  intro hnl
  exact splitlinesL_no_nl _ ln hln (trimL_subset ln '\n' hnl)

theorem mem_dirsOfL (s : Str) (t : Str) (h : t ∈ dirsOfL s) :
    GoodLine t ∧ startsWithL (str "#") t = true :=
  mem_trimmed_filter s (fun t => startsWithL (str "#") t = true) t h

theorem mem_codesOfL (s : Str) (t : Str) (h : t ∈ codesOfL s) :
    GoodLine t ∧ ¬ startsWithL (str "#") t = true :=
  mem_trimmed_filter s (fun t => ¬ startsWithL (str "#") t = true) t h

theorem filterNW_ne_nil_of_good (t : Str) (h : GoodLine t) : filterNW t ≠ [] := by
  obtain ⟨hne, _, hh, _⟩ := h
  cases t with
  | nil => exact absurd rfl hne
  | cons c rest =>
    have := hh c rfl
    simp [filterNW, List.filter_cons, this]

theorem GoodLine_minifyL (t : Str) (h : GoodLine t) : GoodLine (minifyL t) := by
  obtain ⟨hne, hnl, hh, he⟩ := h
  exact ⟨minifyL_ne_nil t (filterNW_ne_nil_of_good t ⟨hne, hnl, hh, he⟩),
    minifyL_no_nl t hnl, HeadNW_minifyL t hh, EndsNW_minifyL t he⟩

theorem GoodLine_spaceJoin (ch : List Str) (hne : ch ≠ [])
    (h : ∀ x ∈ ch, GoodLine x) : GoodLine (spaceJoinL ch) := by
  refine ⟨joinWith_ne_nil ' ' ch (fun x hx => (h x hx).1) hne, ?_, ?_, ?_⟩
  · intro hnl
    rcases mem_joinWith ' ' ch '\n' hnl with h1 | ⟨x, hx, hcx⟩
    · cases h1
    · exact (h x hx).2.1 hcx
  · cases ch with
    | nil => exact absurd rfl hne
    | cons l rest =>
      intro c hc
      simp only [spaceJoinL] at hc
      rw [joinWith_head? ' ' l rest ((h l (by simp)).1)] at hc
      exact (h l (by simp)).2.2.1 c hc
  · intro c hc
    simp only [spaceJoinL] at hc
    rw [joinWith_getLast? ' ' ch (fun x hx => (h x hx).1) hne] at hc
    exact (h _ (List.getLast_mem hne)).2.2.2 c hc

theorem GoodLine_joinNL_head (ls : List Str) (hne : ls ≠ [])
    (h : ∀ x ∈ ls, GoodLine x) : HeadNW (joinNL ls) := by
  cases ls with
  | nil => exact absurd rfl hne
  | cons l rest =>
    intro c hc
    simp only [joinNL] at hc
    rw [joinWith_head? '\n' l rest ((h l (by simp)).1)] at hc
    exact (h l (by simp)).2.2.1 c hc

theorem GoodLine_joinNL_last (ls : List Str) (hne : ls ≠ [])
    (h : ∀ x ∈ ls, GoodLine x) : EndsNW (joinNL ls) := by
  intro c hc
  simp only [joinNL] at hc
  rw [joinWith_getLast? '\n' ls (fun x hx => (h x hx).1) hne] at hc
  exact (h _ (List.getLast_mem hne)).2.2.2 c hc

theorem joinWith_append (sep : Char) (a b : List Str) (ha : a ≠ []) (hb : b ≠ []) :
    joinWith sep (a ++ b) = joinWith sep a ++ sep :: joinWith sep b := by
  induction a with
  | nil => exact absurd rfl ha
  | cons x rest ih =>
    cases rest with
    | nil =>
      cases b with
      | nil => exact absurd rfl hb
      | cons y ys =>
        rw [List.cons_append, List.nil_append,
          joinWith_cons _ _ _ (by simp)]
        rfl
    | cons y ys =>
      rw [List.cons_append, joinWith_cons _ _ _ (by simp),
        joinWith_cons _ _ _ (by simp), ih (by simp)]
      simp

theorem trimL_nl_cons (X : Str) (hh : HeadNW X) (he : EndsNW X) :
    trimL ('\n' :: X) = X := by
  unfold trimL
  rw [List.dropWhile_cons_of_pos (by decide)]
  rw [dropWhile_eq_self_of_head? _ _ hh]
  rw [dropWhile_eq_self_of_head? _ _ (by
    intro c hc
    rw [List.head?_reverse] at hc
    exact he c hc)]
  exact List.reverse_reverse X

/-! ## Characterisation of the rendered block -/

theorem classify_fst (s : Str) :
    (classifyLinesL (splitlinesL (strip_commentsL s))).1 = dirsOfL s := by
  rw [classifyLinesL_eq]
  rfl

theorem classify_snd (s : Str) :
    (classifyLinesL (splitlinesL (strip_commentsL s))).2 = codesOfL s := by
  rw [classifyLinesL_eq]
  rfl

theorem renderContentL_eq (f style : Str) (m : Nat) :
    renderContentL f style m =
      if codesOfL f = [] then joinNL (dirsOfL f)
      else joinNL (dirsOfL f)
        ++ '\n' :: joinNL (codeBlockLinesL (codesOfL f) style m) := by
  have hparts : ∀ p ∈ (codesOfL f).map minifyL, p ≠ [] := by
    intro p hp
    rw [List.mem_map] at hp
    obtain ⟨t, ht, rfl⟩ := hp
    exact (GoodLine_minifyL t (mem_codesOfL f t ht).1).1
  simp only [renderContentL, classify_fst, classify_snd]
  unfold codeBlockLinesL
  by_cases h0 : codesOfL f = []
  · simp [h0]
  · rw [if_neg h0, if_neg h0, if_neg h0]
    by_cases h1 : style = str "single_line"
    · rw [if_pos h1, if_pos h1]
      rfl
    · rw [if_neg h1, if_neg h1]
      by_cases h2 : style = str "multiline"
      · rw [if_pos h2, if_pos h2]
        rw [wrapCodeL_eq_joinNL m _ hparts]
      · rw [if_neg h2, if_neg h2]

theorem mem_codeBlockLines_good (f style : Str) (m : Nat) :
    ∀ t ∈ codeBlockLinesL (codesOfL f) style m, GoodLine t := by
  intro t ht
  have hgood : ∀ x ∈ (codesOfL f).map minifyL, GoodLine x := by
    intro x hx
    rw [List.mem_map] at hx
    obtain ⟨u, hu, rfl⟩ := hx
    exact GoodLine_minifyL u (mem_codesOfL f u hu).1
  unfold codeBlockLinesL at ht
  by_cases h0 : codesOfL f = []
  · rw [if_pos h0] at ht
    cases ht
  · rw [if_neg h0] at ht
    by_cases h1 : style = str "single_line"
    · rw [if_pos h1] at ht
      rcases List.mem_singleton.1 ht with rfl
      exact GoodLine_spaceJoin _ (by simp [h0]) hgood
    · rw [if_neg h1] at ht
      by_cases h2 : style = str "multiline"
      · rw [if_pos h2] at ht
        obtain ⟨chunks, hprops, hjoin, heq⟩ :=
          wrapLinesL_chunks m ((codesOfL f).map minifyL)
            (fun p hp => (hgood p hp).1)
        rw [heq, List.mem_map] at ht
        obtain ⟨ch, hch, rfl⟩ := ht
        refine GoodLine_spaceJoin ch (hprops ch hch).1 ?_
        intro x hx
        apply hgood
        rw [← hjoin]
        exact List.mem_join.2 ⟨ch, hch, hx⟩
      · rw [if_neg h2] at ht
        exact (mem_codesOfL f t ht).1

theorem codeBlockLinesL_ne_nil (f style : Str) (m : Nat) (h0 : codesOfL f ≠ []) :
    codeBlockLinesL (codesOfL f) style m ≠ [] := by
  have hgood : ∀ x ∈ (codesOfL f).map minifyL, GoodLine x := by
    intro x hx
    rw [List.mem_map] at hx
    obtain ⟨u, hu, rfl⟩ := hx
    exact GoodLine_minifyL u (mem_codesOfL f u hu).1
  unfold codeBlockLinesL
  rw [if_neg h0]
  by_cases h1 : style = str "single_line"
  · rw [if_pos h1]
    simp
  · rw [if_neg h1]
    by_cases h2 : style = str "multiline"
    · rw [if_pos h2]
      cases hm : (codesOfL f).map minifyL with
      | nil => exact absurd (List.map_eq_nil.1 hm) h0
      | cons p ps =>
        rw [wrapLinesL, wrapLinesGoL, if_pos rfl]
        apply wrapLinesGoL_ne_nil
        have : GoodLine p := hgood p (by rw [hm]; simp)
        exact this.1
    · rw [if_neg h2]
      exact h0

theorem renderedBlockL_splitlines (f style : Str) (m : Nat) :
    splitlinesL (renderedBlockL f style m)
      = dirsOfL f ++ codeBlockLinesL (codesOfL f) style m := by
  have hdir : ∀ t ∈ dirsOfL f, GoodLine t := fun t ht => (mem_dirsOfL f t ht).1
  have hcb : ∀ t ∈ codeBlockLinesL (codesOfL f) style m, GoodLine t :=
    mem_codeBlockLines_good f style m
  unfold renderedBlockL
  rw [renderContentL_eq]
  by_cases h0 : codesOfL f = []
  · rw [if_pos h0]
    have hcbnil : codeBlockLinesL (codesOfL f) style m = [] := by
      unfold codeBlockLinesL
      rw [if_pos h0]
    rw [hcbnil, List.append_nil]
    by_cases hd : dirsOfL f = []
    · rw [hd]
      decide
    · rw [trimL_eq_self_of_NW _ (GoodLine_joinNL_head _ hd hdir)
        (GoodLine_joinNL_last _ hd hdir)]
      exact splitlinesL_joinNL _ (fun l hl => ⟨(hdir l hl).1, (hdir l hl).2.1⟩)
  · rw [if_neg h0]
    have hcbne : codeBlockLinesL (codesOfL f) style m ≠ [] :=
      codeBlockLinesL_ne_nil f style m h0
    by_cases hd : dirsOfL f = []
    · rw [hd]
      rw [show joinNL ([] : List Str) ++ '\n'
          :: joinNL (codeBlockLinesL (codesOfL f) style m)
          = '\n' :: joinNL (codeBlockLinesL (codesOfL f) style m) from rfl]
      rw [trimL_nl_cons _ (GoodLine_joinNL_head _ hcbne hcb)
        (GoodLine_joinNL_last _ hcbne hcb)]
      rw [List.nil_append]
      exact splitlinesL_joinNL _ (fun l hl => ⟨(hcb l hl).1, (hcb l hl).2.1⟩)
    · have hall : ∀ t ∈ dirsOfL f ++ codeBlockLinesL (codesOfL f) style m,
          GoodLine t := by
        intro t ht
        rcases List.mem_append.1 ht with h1 | h1
        · exact hdir t h1
        · exact hcb t h1
      rw [show joinNL (dirsOfL f) ++ '\n'
          :: joinNL (codeBlockLinesL (codesOfL f) style m)
          = joinNL (dirsOfL f ++ codeBlockLinesL (codesOfL f) style m) from
        (joinWith_append '\n' _ _ hd hcbne).symm]
      rw [trimL_eq_self_of_NW _
        (GoodLine_joinNL_head _ (by simp [hd]) hall)
        (GoodLine_joinNL_last _ (by simp [hd]) hall)]
      exact splitlinesL_joinNL _ (fun l hl => ⟨(hall l hl).1, (hall l hl).2.1⟩)

/-! ## Non-whitespace content of the rendered block -/

theorem filterNW_trimL (l : Str) : filterNW (trimL l) = filterNW l := by
  unfold trimL
  rw [show filterNW (((l.dropWhile isWS).reverse.dropWhile isWS).reverse)
      = (filterNW ((l.dropWhile isWS).reverse.dropWhile isWS)).reverse from
    List.filter_reverse _ _]
  rw [filterNW_dropWhile]
  rw [show filterNW ((l.dropWhile isWS).reverse)
      = (filterNW (l.dropWhile isWS)).reverse from List.filter_reverse _ _]
  rw [filterNW_dropWhile, List.reverse_reverse]

theorem filterNW_render_single_eq_none (f : Str) (m : Nat) :
    filterNW (renderedBlockL f (str "single_line") m)
      = filterNW (renderedBlockL f (str "none") m) := by
  unfold renderedBlockL
  rw [filterNW_trimL, filterNW_trimL, renderContentL_eq, renderContentL_eq]
  by_cases h0 : codesOfL f = []
  · rw [if_pos h0, if_pos h0]
  · rw [if_neg h0, if_neg h0]
    unfold filterNW
    rw [List.filter_append, List.filter_append]
    congr 1
    rw [List.filter_cons, List.filter_cons]
    have hnl : (!isWS '\n') = false := by decide
    rw [hnl]
    simp only [Bool.false_eq_true, if_false]
    have hsingle : codeBlockLinesL (codesOfL f) (str "single_line") m
        = [spaceJoinL ((codesOfL f).map minifyL)] := by
      unfold codeBlockLinesL
      rw [if_neg h0, if_pos rfl]
    have hnone : codeBlockLinesL (codesOfL f) (str "none") m = codesOfL f := by
      unfold codeBlockLinesL
      rw [if_neg h0, if_neg (by decide), if_neg (by decide)]
    rw [hsingle, hnone]
    rw [show joinNL [spaceJoinL ((codesOfL f).map minifyL)]
        = spaceJoinL ((codesOfL f).map minifyL) from rfl]
    rw [show List.filter (fun c => !isWS c) (spaceJoinL ((codesOfL f).map minifyL))
        = filterNW (spaceJoinL ((codesOfL f).map minifyL)) from rfl]
    rw [show List.filter (fun c => !isWS c) (joinNL (codesOfL f))
        = filterNW (joinNL (codesOfL f)) from rfl]
    rw [show filterNW (spaceJoinL ((codesOfL f).map minifyL))
        = (((codesOfL f).map minifyL).map filterNW).join from
      filterNW_joinWith ' ' (by decide) _]
    rw [show filterNW (joinNL (codesOfL f))
        = ((codesOfL f).map filterNW).join from filterNW_joinWith '\n' (by decide) _]
    congr 1
    rw [List.map_map]
    apply List.map_congr_left
    intro t _
    exact filterNW_minifyL t

/-! ## Idempotence analysis of `strip_comments` -/

/-- Whether the two-character sequence `a` `b` occurs (adjacently)
anywhere in the text. -/
def hasPairL (a b : Char) : Str → Bool
  | [] => false
  | [_] => false
  | c :: d :: rest => (c == a && d == b) || hasPairL a b (d :: rest)

theorem hasPairL_tail (a b c : Char) (rest : Str)
    (h : hasPairL a b (c :: rest) = false) : hasPairL a b rest = false := by
  cases rest with
  | nil => rfl
  | cons d r =>
    rw [hasPairL] at h
    simp only [Bool.or_eq_false_iff] at h
    exact h.2

theorem stripBlockGo_id (fuel : Nat) : ∀ (l : Str),
    hasPairL '/' '*' l = false → stripBlockGo fuel l = l := by
  induction fuel with
  | zero => intro l _; rfl
  | succ n ih =>
    intro l h
    rw [stripBlockGo.eq_def]
    split
    · rfl
    · rfl
    · exfalso
      rw [hasPairL] at h
      simp at h
    · rename_i fuelv cc rest hno heq
      have hf : fuelv = n := by omega
      subst hf
      rw [ih rest (hasPairL_tail _ _ _ _ h)]

theorem stripLineGo_id (fuel : Nat) : ∀ (l : Str),
    hasPairL '/' '/' l = false → stripLineGo fuel l = l := by
  induction fuel with
  | zero => intro l _; rfl
  | succ n ih =>
    intro l h
    rw [stripLineGo.eq_def]
    split
    · rfl
    · rfl
    · exfalso
      rw [hasPairL] at h
      simp at h
    · rename_i fuelv cc rest hno heq
      have hf : fuelv = n := by omega
      subst hf
      rw [ih rest (hasPairL_tail _ _ _ _ h)]

theorem stripLineGo_head (fuel : Nat) (l : Str)
    (h : (stripLineGo fuel l).head? = some '/') : l.head? = some '/' := by
  cases fuel with
  | zero => exact h
  | succ n =>
    rw [stripLineGo.eq_def] at h
    revert h
    split
    · exact fun h => h
    · intro h; cases h
    · intro _
      rfl
    · intro h
      cases h
      rfl

theorem stripLineGo_no_ds (fuel : Nat) : ∀ (l : Str), l.length ≤ fuel →
    hasPairL '/' '/' (stripLineGo fuel l) = false := by
  induction fuel with
  | zero =>
    intro l hl
    have h0 : l = [] := List.length_eq_zero.1 (Nat.le_zero.1 hl)
    subst h0
    rfl
  | succ n ih =>
    intro l hl
    rw [stripLineGo.eq_def]
    split
    · exfalso
      omega
    · rfl
    · rename_i fuelv rest heq
      have hf : fuelv = n := by omega
      subst hf
      apply ih
      have h1 := (List.dropWhile_sublist (l := rest)
        (fun c => decide (c ≠ '\n'))).length_le
      simp only [List.length_cons] at hl
      omega
    · rename_i fuelv c rest hno heq
      have hf : fuelv = n := by omega
      subst hf
      have hlen : rest.length ≤ fuelv := by
        simp only [List.length_cons] at hl
        omega
      cases hX : stripLineGo fuelv rest with
      | nil => rfl
      | cons d r =>
        rw [hasPairL, Bool.or_eq_false_iff]
        constructor
        · by_cases hc : c = '/'
          · by_cases hd : d = '/'
            · exfalso
              subst hc
              subst hd
              have hhead : rest.head? = some '/' := by
                apply stripLineGo_head fuelv rest
                rw [hX]
                rfl
              cases rest with
              | nil => cases hhead
              | cons r0 r' =>
                have hr0 : r0 = '/' := by simpa using hhead
                subst hr0
                exact hno r' rfl rfl
            · simp [hd]
          · simp [hc]
        · rw [← hX]
          exact ih rest hlen

theorem stripLineL_idem (l : Str) : stripLineL (stripLineL l) = stripLineL l :=
  stripLineGo_id _ _ (stripLineGo_no_ds _ _ (le_refl _))

/-- If the comment-stripped text contains no block-comment opener, a
second application of `strip_comments` changes nothing. -/
theorem strip_comments_idem_of_noOpen (s : Str)
    (h : hasPairL '/' '*' (strip_commentsL s) = false) :
    strip_commentsL (strip_commentsL s) = strip_commentsL s := by
  show stripLineL (stripBlockL (stripLineL (stripBlockL s)))
    = stripLineL (stripBlockL s)
  rw [show stripBlockL (stripLineL (stripBlockL s)) = stripLineL (stripBlockL s) from
    stripBlockGo_id _ _ h]
  exact stripLineL_idem _

/-! ## Lemmas about the recursive inliner -/

theorem inlineGo_visited (fs : List (Str × Str)) (fuel : Nat) (path : Str)
    (seen : List Str) (h : path ∈ seen) :
    inlineGo fs fuel path seen = ⟨[], seen, [], []⟩ := by
  cases fuel with
  | zero => rfl
  | succ n =>
    rw [inlineGo, if_pos h]

theorem lookupFS_mem (fs : List (Str × Str)) (p : Str) (c : Str)
    (h : lookupFS fs p = some c) : p ∈ fs.map Prod.fst := by
  induction fs with
  | nil => cases h
  | cons e rest ih =>
    rw [lookupFS] at h
    by_cases he : e.1 = p
    · simp [he.symm]
    · rw [if_neg he] at h
      simp [ih h]

/-- The four traversal invariants of one `recursively_inline` call: the
visited set only grows, no file is read twice, nothing already visited
is read, and everything read ends up visited. -/
def InlineInv (seen : List Str) (r : RInline) : Prop :=
  seen ⊆ r.seen ∧ r.reads.Nodup ∧ (∀ q ∈ r.reads, q ∉ seen) ∧
    (∀ q ∈ r.reads, q ∈ r.seen)

theorem inlineLinesGo_invariant (go : Str → List Str → RInline)
    (Hgo : ∀ p seen, InlineInv seen (go p seen)) (dir : Str) :
    ∀ (lines : List Str) (seen : List Str),
      let r := inlineLinesGo go dir lines seen
      seen ⊆ r.seen ∧ r.reads.Nodup ∧ (∀ q ∈ r.reads, q ∉ seen) ∧
        (∀ q ∈ r.reads, q ∈ r.seen) := by
  intro lines
  induction lines with
  | nil =>
    intro seen
    exact ⟨fun q hq => hq, List.nodup_nil, fun q hq => absurd hq (List.not_mem_nil q), fun q hq => absurd hq (List.not_mem_nil q)⟩
  | cons line rest ihl =>
    intro seen
    rw [inlineLinesGo]
    cases hm : includeMatchL line with
    | some name =>
      dsimp only
      obtain ⟨hg1, hg2, hg3, hg4⟩ := Hgo (joinPathL dir name) seen
      obtain ⟨hr1, hr2, hr3, hr4⟩ := ihl (go (joinPathL dir name) seen).seen
      refine ⟨fun q hq => hr1 (hg1 hq), ?_, ?_, ?_⟩
      · rw [List.nodup_append]
        refine ⟨hg2, hr2, ?_⟩
        intro q hq hq2
        exact hr3 q hq2 (hg4 q hq)
      · intro q hq
        rcases List.mem_append.1 hq with h1 | h1
        · exact hg3 q h1
        · intro hmem
          exact hr3 q h1 (hg1 hmem)
      · intro q hq
        rcases List.mem_append.1 hq with h1 | h1
        · exact hr1 (hg4 q h1)
        · exact hr4 q h1
    | none =>
      dsimp only
      by_cases hp : trimL line = str "#pragma once"
      · rw [if_pos hp]
        exact ihl seen
      · rw [if_neg hp]
        exact ihl seen

theorem inlineGo_invariant (fs : List (Str × Str)) :
    ∀ (fuel : Nat) (path : Str) (seen : List Str),
      InlineInv seen (inlineGo fs fuel path seen) := by
  intro fuel
  induction fuel with
  | zero =>
    intro path seen
    exact ⟨fun q hq => hq, List.nodup_nil, fun q hq => absurd hq (List.not_mem_nil q), fun q hq => absurd hq (List.not_mem_nil q)⟩
  | succ n ih =>
    intro path seen
    rw [inlineGo]
    by_cases hseen : path ∈ seen
    · rw [if_pos hseen]
      exact ⟨fun q hq => hq, List.nodup_nil, fun q hq => absurd hq (List.not_mem_nil q), fun q hq => absurd hq (List.not_mem_nil q)⟩
    · rw [if_neg hseen]
      cases hlk : lookupFS fs path with
      | none =>
        dsimp only
        exact ⟨fun q hq => by simp [hq], List.nodup_nil, fun q hq => absurd hq (List.not_mem_nil q), fun q hq => absurd hq (List.not_mem_nil q)⟩
      | some content =>
        dsimp only
        obtain ⟨hr1, hr2, hr3, hr4⟩ :=
          inlineLinesGo_invariant (inlineGo fs n) (ih) (dirnameL path)
            (splitlinesL content) (path :: seen)
        refine ⟨?_, ?_, ?_, ?_⟩
        · intro q hq
          exact hr1 (by simp [hq])
        · show (path :: _).Nodup
          rw [List.nodup_cons]
          refine ⟨?_, hr2⟩
          intro hmem
          exact hr3 path hmem (by simp)
        · intro q hq
          rcases List.mem_cons.1 hq with h1 | h1
          · subst h1
            exact hseen
          · intro hmem
            exact hr3 q h1 (by simp [hmem])
        · intro q hq
          rcases List.mem_cons.1 hq with h1 | h1
          · subst h1
            exact hr1 (by simp)
          · exact hr4 q h1

theorem unvisited_mono (fs : List (Str × Str)) (s1 s2 : List Str)
    (h : s1 ⊆ s2) : unvisited fs s2 ≤ unvisited fs s1 := by
  apply Finset.card_le_card
  intro p hp
  rw [Finset.mem_filter] at hp ⊢
  exact ⟨hp.1, fun hmem => hp.2 (h hmem)⟩

theorem unvisited_lt (fs : List (Str × Str)) (path : Str) (seen : List Str)
    (hmem : path ∈ fs.map Prod.fst) (hnot : path ∉ seen) :
    unvisited fs (path :: seen) < unvisited fs seen := by
  apply Finset.card_lt_card
  rw [Finset.ssubset_iff_of_subset]
  · exact ⟨path, by
      rw [Finset.mem_filter]
      exact ⟨List.mem_toFinset.2 hmem, hnot⟩,
      by
      rw [Finset.mem_filter]
      intro hx
      exact hx.2 (by simp)⟩
  · intro p hp
    rw [Finset.mem_filter] at hp ⊢
    refine ⟨hp.1, fun hm => hp.2 ?_⟩
    simp [hm]

theorem unvisited_pos (fs : List (Str × Str)) (path : Str) (seen : List Str)
    (hmem : path ∈ fs.map Prod.fst) (hnot : path ∉ seen) :
    1 ≤ unvisited fs seen := by
  have hp : path ∈ (fs.map Prod.fst).toFinset.filter (fun p => p ∉ seen) := by
    rw [Finset.mem_filter]
    exact ⟨List.mem_toFinset.2 hmem, hnot⟩
  exact Finset.card_pos.2 ⟨path, hp⟩

theorem unvisited_le_length (fs : List (Str × Str)) (seen : List Str) :
    unvisited fs seen ≤ fs.length := by
  calc unvisited fs seen ≤ (fs.map Prod.fst).toFinset.card :=
        Finset.card_le_card (Finset.filter_subset _ _)
    _ ≤ (fs.map Prod.fst).length := List.toFinset_card_le _
    _ = fs.length := List.length_map _ _

/-- Stability of the fueled inliner: any two fuels strictly above the
number of unvisited files give identical results — the Python recursion,
whose depth is exactly what the fuel bounds, reaches this common value. -/
theorem inline_stable (n : Nat) (fs : List (Str × Str)) :
    (∀ (path : Str) (seen : List Str) (f1 f2 : Nat),
      unvisited fs seen ≤ n → n < f1 → n < f2 →
      inlineGo fs f1 path seen = inlineGo fs f2 path seen) ∧
    (∀ (dir : Str) (lines : List Str) (seen : List Str) (f1 f2 : Nat),
      unvisited fs seen ≤ n → n < f1 → n < f2 →
      inlineLinesGo (inlineGo fs f1) dir lines seen
        = inlineLinesGo (inlineGo fs f2) dir lines seen) := by
  induction n using Nat.strong_induction_on with
  | _ n IH =>
    have P : ∀ (path : Str) (seen : List Str) (f1 f2 : Nat),
        unvisited fs seen ≤ n → n < f1 → n < f2 →
        inlineGo fs f1 path seen = inlineGo fs f2 path seen := by
      intro path seen f1 f2 hu h1 h2
      cases f1 with
      | zero => omega
      | succ a =>
        cases f2 with
        | zero => omega
        | succ b =>
          rw [inlineGo, inlineGo]
          by_cases hseen : path ∈ seen
          · rw [if_pos hseen, if_pos hseen]
          · rw [if_neg hseen, if_neg hseen]
            cases hlk : lookupFS fs path with
            | none => rfl
            | some content =>
              dsimp only
              have hkey : path ∈ fs.map Prod.fst := lookupFS_mem fs path content hlk
              have hlt := unvisited_lt fs path seen hkey hseen
              have hpos := unvisited_pos fs path seen hkey hseen
              have hQ := (IH (n - 1) (by omega)).2
              simp only [hQ (dirnameL path) (splitlinesL content) (path :: seen) a b
                (by omega : unvisited fs (path :: seen) ≤ n - 1)
                (by omega : n - 1 < a) (by omega : n - 1 < b)]
    refine ⟨P, ?_⟩
    intro dir lines
    induction lines with
    | nil =>
      intro seen f1 f2 _ _ _
      rfl
    | cons line rest ihl =>
      intro seen f1 f2 hu h1 h2
      conv_lhs => rw [inlineLinesGo]
      conv_rhs => rw [inlineLinesGo]
      cases hm : includeMatchL line with
      | none =>
        dsimp only
        by_cases hp : trimL line = str "#pragma once"
        · rw [if_pos hp, if_pos hp]
          exact ihl seen f1 f2 hu h1 h2
        · rw [if_neg hp, if_neg hp]
          simp only [ihl seen f1 f2 hu h1 h2]
      | some name =>
        dsimp only
        have hg := P (joinPathL dir name) seen f1 f2 hu h1 h2
        have hsub : seen ⊆ (inlineGo fs f2 (joinPathL dir name) seen).seen :=
          (inlineGo_invariant fs f2 (joinPathL dir name) seen).1
        simp only [hg,
          ihl (inlineGo fs f2 (joinPathL dir name) seen).seen f1 f2
            (le_trans (unvisited_mono fs seen _ hsub) hu) h1 h2]

theorem inlineLinesGo_no_includes (go : Str → List Str → RInline) (dir : Str) :
    ∀ (lines : List Str) (seen : List Str),
      (∀ line ∈ lines, includeMatchL line = none) →
      inlineLinesGo go dir lines seen =
        ⟨lines.filter (fun l => trimL l ≠ str "#pragma once"), seen, [], []⟩ := by
  intro lines
  induction lines with
  | nil => intro seen _; rfl
  | cons line rest ih =>
    intro seen h
    rw [inlineLinesGo, h line (by simp)]
    dsimp only
    rw [List.filter_cons]
    by_cases hp : trimL line = str "#pragma once"
    · rw [if_pos hp, ih seen (fun x hx => h x (by simp [hx]))]
      simp [hp]
    · rw [if_neg hp, ih seen (fun x hx => h x (by simp [hx]))]
      simp [hp]

theorem inlineGo_fresh (fs : List (Str × Str)) (fuel : Nat) (path content : Str)
    (h : lookupFS fs path = some content)
    (hni : ∀ line ∈ splitlinesL content, includeMatchL line = none) :
    inlineGo fs (fuel + 1) path [] =
      ⟨joinNL ((splitlinesL content).filter
          (fun l => trimL l ≠ str "#pragma once")),
        [path], [path], []⟩ := by
  rw [inlineGo, if_neg (List.not_mem_nil path), h]
  dsimp only
  rw [inlineLinesGo_no_includes (inlineGo fs fuel) (dirnameL path)
    (splitlinesL content) [path] hni]

theorem includeMatchL_decomp (ws name junk : Str)
    (hws : ∀ c ∈ ws, isWS c = true) (hname : name ≠ []) (hq : '"' ∉ name) :
    includeMatchL (ws ++ (str "#include \"" ++ (name ++ '"' :: junk)))
      = some name := by
  unfold includeMatchL matchIncludeAtL
  rw [dropWhile_append_of_all _ _ _ hws]
  rw [dropWhile_eq_self_of_head? _ _ (by
    intro c hc
    have hh : (str "#include \"" ++ (name ++ '"' :: junk)).head? = some '#' := rfl
    rw [hh] at hc
    cases hc
    decide)]
  rw [if_pos (startsWithL_append _ _)]
  dsimp only
  rw [List.drop_left]
  rw [takeWhile_append_of_all _ _ _ _ (by
    intro c hc
    simp only [decide_eq_true_eq]
    intro he
    exact hq (he ▸ hc)) (by decide)]
  rw [List.drop_left]
  cases name with
  | nil => exact absurd rfl hname
  | cons c rest => rfl

theorem renderContentL_nil (style : Str) (m : Nat) :
    renderContentL [] style m = [] := by
  rw [renderContentL_eq]
  rw [if_pos (show codesOfL [] = [] from rfl)]
  rfl

/-! ## The claims -/

/-- A diamond include graph: `/r.h` includes `/a.h` and `/b.h`, both of
which include `/c.h`. -/
def diamondFS : List (Str × Str) :=
  [(str "/r.h", str "#include \"a.h\"\n#include \"b.h\""),
   (str "/a.h", str "#include \"c.h\"\nint a;"),
   (str "/b.h", str "#include \"c.h\"\nint b;"),
   (str "/c.h", str "int c;")]

/-- A self-including header. -/
def cycleFS : List (Str × Str) := [(str "/s.h", str "#include \"s.h\"\nint s;")]

/-- C1: a header reachable more than once is inlined exactly once, at its
first encountered position; every later occurrence yields empty content
with no error and no warning.  The first conjunct is the general
suppression rule of `recursively_inline` (a path already in the visited
set returns empty text, unchanged state and no warning); the others
compute the diamond and the self-include graphs: `/c.h`'s content
appears once, at its first traversal position, with the second
occurrence contributing an empty line, each file being read at most
once. -/
theorem C1_first_occurrence_wins :
    (∀ (fs : List (Str × Str)) (fuel : Nat) (path : Str) (seen : List Str),
      path ∈ seen → inlineGo fs fuel path seen = ⟨[], seen, [], []⟩) ∧
    (inlineGo diamondFS 5 (str "/r.h") []).text
      = str "int c;\nint a;\n\nint b;" ∧
    (inlineGo diamondFS 5 (str "/r.h") []).reads
      = [str "/r.h", str "/a.h", str "/c.h", str "/b.h"] ∧
    (inlineGo diamondFS 5 (str "/r.h") []).warns = [] ∧
    (inlineGo cycleFS 3 (str "/s.h") []).text = str "\nint s;" := by
  refine ⟨inlineGo_visited, ?_, ?_, ?_, ?_⟩ <;> decide

theorem C1_witness :
    inlineGo [] 2 (str "/x.h") [str "/x.h"]
      = ⟨[], [str "/x.h"], [], []⟩ :=
  C1_first_occurrence_wins.1 [] 2 (str "/x.h") [str "/x.h"] (by decide)

/-- C2: the recursion terminates and inlines each header at most once.
Termination of the unbounded Python recursion is expressed through the
fuel model: any two fuel bounds strictly above the number of not yet
visited files give the same result, so the recursion depth is bounded by
the visited set's growth and the recursion reaches a well-defined value.
The second conjunct is the traversal invariant: the visited set only
grows, no file is ever read twice, and nothing already visited is read
again. -/
theorem C2_terminates_inlines_once :
    (∀ (fs : List (Str × Str)) (path : Str) (seen : List Str) (f1 f2 : Nat),
      unvisited fs seen < f1 → unvisited fs seen < f2 →
      inlineGo fs f1 path seen = inlineGo fs f2 path seen) ∧
    (∀ (fs : List (Str × Str)) (fuel : Nat) (path : Str) (seen : List Str),
      seen ⊆ (inlineGo fs fuel path seen).seen ∧
      (inlineGo fs fuel path seen).reads.Nodup ∧
      (∀ q ∈ (inlineGo fs fuel path seen).reads, q ∉ seen)) := by
  constructor
  · intro fs path seen f1 f2 h1 h2
    exact (inline_stable (unvisited fs seen) fs).1 path seen f1 f2 (le_refl _) h1 h2
  · intro fs fuel path seen
    obtain ⟨ha, hb, hc, _⟩ := inlineGo_invariant fs fuel path seen
    exact ⟨ha, hb, hc⟩

theorem C2_witness :
    inlineGo cycleFS 2 (str "/s.h") [] = inlineGo cycleFS 7 (str "/s.h") [] :=
  C2_terminates_inlines_once.1 cycleFS (str "/s.h") [] 2 7
    (by decide) (by decide)

/-- C3: a header with no local include lines is returned as its own
lines joined by newlines, in order, with exactly the lines whose trimmed
form is `#pragma once` removed. -/
theorem C3_no_includes_pass_through :
    ∀ (fs : List (Str × Str)) (fuel : Nat) (path content : Str),
      lookupFS fs path = some content →
      (∀ line ∈ splitlinesL content, includeMatchL line = none) →
      (inlineGo fs (fuel + 1) path []).text =
        joinNL ((splitlinesL content).filter
          (fun l => trimL l ≠ str "#pragma once")) := by
  intro fs fuel path content h hni
  rw [inlineGo_fresh fs fuel path content h hni]

theorem C3_witness :
    (inlineGo [(str "/h.h", str "int x = 1;\n#pragma once\n  int y;")] 1
        (str "/h.h") []).text =
      joinNL ((splitlinesL (str "int x = 1;\n#pragma once\n  int y;")).filter
        (fun l => trimL l ≠ str "#pragma once")) :=
  C3_no_includes_pass_through _ 0 _ _ (by decide) (by decide)

/-- C4: for every input and minification mode, the rendered block (the
text written between the markers) splits into exactly the directive
lines followed by the code-block lines; the directive group is the
order-preserving selection of the trimmed non-blank `#`-lines, the code
group is built from the trimmed non-blank non-`#`-lines in order
(`codeBlockLinesL`), and blank lines survive in neither group (every
classified line is non-empty and trimmed). -/
theorem C4_directives_before_code :
    ∀ (flattened style : Str) (m : Nat),
      splitlinesL (renderedBlockL flattened style m)
        = dirsOfL flattened ++ codeBlockLinesL (codesOfL flattened) style m ∧
      (∀ t ∈ dirsOfL flattened,
        startsWithL (str "#") t = true ∧ t ≠ [] ∧ trimL t = t) ∧
      (∀ t ∈ codesOfL flattened,
        startsWithL (str "#") t = false ∧ t ≠ [] ∧ trimL t = t) := by
  intro flattened style m
  refine ⟨renderedBlockL_splitlines flattened style m, ?_, ?_⟩
  · intro t ht
    obtain ⟨⟨hne, _, hh, he⟩, hstart⟩ := mem_dirsOfL flattened t ht
    exact ⟨hstart, hne, trimL_eq_self_of_NW t hh he⟩
  · intro t ht
    obtain ⟨⟨hne, _, hh, he⟩, hstart⟩ := mem_codesOfL flattened t ht
    exact ⟨Bool.not_eq_true _ ▸ eq_false_of_ne_true hstart, hne,
      trimL_eq_self_of_NW t hh he⟩

/-- C5: in `multiline` mode with positive width, the rendered code block
is the greedy wrapping of the minified fragments: every output line
either fits in `m` columns or is a single over-long fragment kept whole,
and the output lines are exactly the space-joins of a partition of the
fragment list into consecutive non-empty chunks, so no fragment is ever
split across lines. -/
theorem C5_multiline_width_bound :
    ∀ (flattened : Str) (m : Nat), 0 < m →
      splitlinesL (renderedBlockL flattened (str "multiline") m)
        = dirsOfL flattened
          ++ wrapLinesL m ((codesOfL flattened).map minifyL) ∧
      (∀ line ∈ wrapLinesL m ((codesOfL flattened).map minifyL),
        line.length ≤ m
          ∨ (line ∈ (codesOfL flattened).map minifyL ∧ m < line.length)) ∧
      (∃ chunks : List (List Str), (∀ ch ∈ chunks, ch ≠ []) ∧
        chunks.join = (codesOfL flattened).map minifyL ∧
        wrapLinesL m ((codesOfL flattened).map minifyL)
          = chunks.map spaceJoinL) := by
  intro flattened m _
  have hparts : ∀ p ∈ (codesOfL flattened).map minifyL, p ≠ [] := by
    intro p hp
    rw [List.mem_map] at hp
    obtain ⟨t, ht, rfl⟩ := hp
    exact (GoodLine_minifyL t (mem_codesOfL flattened t ht).1).1
  refine ⟨?_, ?_, ?_⟩
  · rw [renderedBlockL_splitlines]
    congr 1
    unfold codeBlockLinesL
    by_cases h0 : codesOfL flattened = []
    · rw [if_pos h0, h0]
      rfl
    · rw [if_neg h0, if_neg (by decide), if_pos rfl]
  · intro line hline
    have := wrapLinesGoL_bound m ((codesOfL flattened).map minifyL) []
      ((codesOfL flattened).map minifyL) (Or.inl rfl) (fun p hp => hp) line hline
    rcases this with h1 | h1
    · exact Or.inl h1
    · by_cases h2 : line.length ≤ m
      · exact Or.inl h2
      · exact Or.inr ⟨h1, by omega⟩
  · obtain ⟨chunks, hprops, hjoin, heq⟩ :=
      wrapLinesL_chunks m ((codesOfL flattened).map minifyL) hparts
    exact ⟨chunks, fun ch hch => (hprops ch hch).1, hjoin, heq⟩

theorem C5_witness :
    splitlinesL (renderedBlockL (str "int  a = 1 ;\nlong bb = 2 ;")
        (str "multiline") 9)
      = dirsOfL (str "int  a = 1 ;\nlong bb = 2 ;")
        ++ wrapLinesL 9
          ((codesOfL (str "int  a = 1 ;\nlong bb = 2 ;")).map minifyL) :=
  (C5_multiline_width_bound (str "int  a = 1 ;\nlong bb = 2 ;") 9
    (by decide)).1

/-- C6 (counterexample): comment stripping is not idempotent.  On
`//*a*/*b*/` the first pass removes the block comment `/*a*/` (block
comments are stripped before line comments), splicing the remaining
text into `/*b*/`, which a second application removes entirely. -/
theorem C6_counterexample :
    strip_commentsL (strip_commentsL (str "//*a*/*b*/"))
      ≠ strip_commentsL (str "//*a*/*b*/") := by decide

/-- C6 (amended): comment stripping is idempotent on every input whose
stripped form contains no block-comment opener `/*` — re-stripping can
change the text only when block-comment removal has spliced together a
new `/*`; the line-comment pass alone is always idempotent. -/
theorem C6_strip_idempotent_no_new_opener :
    (∀ s : Str, hasPairL '/' '*' (strip_commentsL s) = false →
      strip_commentsL (strip_commentsL s) = strip_commentsL s) ∧
    (∀ s : Str, stripLineL (stripLineL s) = stripLineL s) :=
  ⟨strip_comments_idem_of_noOpen, stripLineL_idem⟩

theorem C6_witness :
    strip_commentsL (strip_commentsL (str "int x; // a comment\ny; /* b */ z;"))
      = strip_commentsL (str "int x; // a comment\ny; /* b */ z;") :=
  C6_strip_idempotent_no_new_opener.1 _ (by decide)

/-- C7: the `single_line` rendering and the `none` rendering of the same
flattened input agree on their sequence of non-whitespace characters:
whitespace minification and space-joining remove or alter only
whitespace. -/
theorem C7_single_line_preserves_tokens :
    ∀ (flattened : Str) (m : Nat),
      filterNW (renderedBlockL flattened (str "single_line") m)
        = filterNW (renderedBlockL flattened (str "none") m) :=
  filterNW_render_single_eq_none

/-- C8: a marked include whose header cannot be read yields empty
flattened text and exactly one warning, the run does not abort, and the
written output is the start marker line, one empty line (the rendering
of empty content), and the end marker line. -/
theorem C8_missing_header :
    ∀ (fs : List (Str × Str)) (sourceDir style line name : Str) (m : Nat),
      startsWithL (str "#include \"") (trimL line) = true →
      endsWithL (str "//@") (trimL line) = true →
      searchIncludeL (trimL line) = some name →
      lookupFS fs (joinPathL sourceDir name) = none →
      (inlineGo fs (fs.length + 1) (joinPathL sourceDir name) []).text = [] ∧
      (inlineGo fs (fs.length + 1) (joinPathL sourceDir name) []).warns
        = [warnMsgL (joinPathL sourceDir name)] ∧
      processRootLine fs sourceDir style m line
        = (emitBlockL name (renderContentL [] style m),
            [warnMsgL (joinPathL sourceDir name)]) ∧
      renderContentL [] style m = [] ∧
      emitBlockL name [] =
        str "// --- Start of inlined file: " ++ name ++ str " ---"
          ++ '\n' :: '\n' :: (str "// --- End of inlined file: " ++ name
            ++ str " ---" ++ ['\n']) := by
  intro fs sourceDir style line name m hsw hew hsearch hlk
  have hr : inlineGo fs (fs.length + 1) (joinPathL sourceDir name) []
      = ⟨[], [joinPathL sourceDir name], [],
          [warnMsgL (joinPathL sourceDir name)]⟩ := by
    rw [inlineGo, if_neg (List.not_mem_nil _), hlk]
  refine ⟨by rw [hr], by rw [hr], ?_, renderContentL_nil style m, ?_⟩
  · unfold processRootLine
    rw [if_pos ⟨hsw, hew⟩, hsearch]
    dsimp only
    rw [hr]
  · rw [emitBlockL, trimL_nil]
    simp

theorem C8_witness :
    processRootLine [] (str "/src") (str "none") 120
        (str "#include \"missing.h\" //@")
      = (emitBlockL (str "missing.h") (renderContentL [] (str "none") 120),
          [warnMsgL (joinPathL (str "/src") (str "missing.h"))]) :=
  (C8_missing_header [] (str "/src") (str "none")
    (str "#include \"missing.h\" //@") (str "missing.h") 120
    (by decide) (by decide) (by decide) (by decide)).2.2.1

/-- C9: a root line whose trimmed form is exactly `#include "" //@`
(marked include with an empty quoted name) is not inlined: the search
regex requires a non-empty name, so the line is written out verbatim,
with no markers and no warning. -/
theorem C9_empty_name_verbatim :
    ∀ (fs : List (Str × Str)) (sourceDir style line : Str) (m : Nat),
      trimL line = str "#include \"\" //@" →
      processRootLine fs sourceDir style m line = (line ++ ['\n'], []) := by
  intro fs sourceDir style line m h
  unfold processRootLine
  rw [h]
  rw [if_pos (by decide)]
  rw [show searchIncludeL (str "#include \"\" //@") = none from by decide]

theorem C9_witness :
    processRootLine [] (str "/s") (str "none") 120 (str "  #include \"\" //@")
      = (str "  #include \"\" //@" ++ ['\n'], []) :=
  C9_empty_name_verbatim [] (str "/s") (str "none") (str "  #include \"\" //@")
    120 (by decide)

/-- C10: inside a header, any line that is leading whitespace followed
by `#include "name"` is a local include regardless of trailing text
(marker, code or comment): the matcher yields the quoted name, and the
whole line — trailing text included — is replaced by the recursive
inlining result, so the trailing text never reaches the output. -/
theorem C10_trailing_text_dropped :
    ∀ (go : Str → List Str → RInline) (dir ws name junk : Str)
      (rest seen : List Str),
      (∀ c ∈ ws, isWS c = true) → name ≠ [] → '"' ∉ name →
      includeMatchL (ws ++ (str "#include \"" ++ (name ++ '"' :: junk)))
        = some name ∧
      inlineLinesGo go dir
          ((ws ++ (str "#include \"" ++ (name ++ '"' :: junk))) :: rest) seen
        = ⟨(go (joinPathL dir name) seen).text
              :: (inlineLinesGo go dir rest
                (go (joinPathL dir name) seen).seen).lines,
            (inlineLinesGo go dir rest
              (go (joinPathL dir name) seen).seen).seen,
            (go (joinPathL dir name) seen).reads
              ++ (inlineLinesGo go dir rest
                (go (joinPathL dir name) seen).seen).reads,
            (go (joinPathL dir name) seen).warns
              ++ (inlineLinesGo go dir rest
                (go (joinPathL dir name) seen).seen).warns⟩ := by
  intro go dir ws name junk rest seen hws hname hq
  have hm := includeMatchL_decomp ws name junk hws hname hq
  refine ⟨hm, ?_⟩
  rw [inlineLinesGo, hm]

theorem C10_witness :
    includeMatchL (str "  " ++ (str "#include \"" ++ (str "a.h"
        ++ '"' :: str " //@ trailing")))
      = some (str "a.h") :=
  (C10_trailing_text_dropped (inlineGo [] 1) (str "/d") (str "  ")
    (str "a.h") (str " //@ trailing") [] []
    (by decide) (by decide) (by decide)).1

theorem C4_witness :
    splitlinesL (renderedBlockL (str "#pragma once\nint x=1;  // c\n#define FOO 1")
        (str "none") 120)
      = dirsOfL (str "#pragma once\nint x=1;  // c\n#define FOO 1")
        ++ codeBlockLinesL
          (codesOfL (str "#pragma once\nint x=1;  // c\n#define FOO 1"))
          (str "none") 120 :=
  (C4_directives_before_code (str "#pragma once\nint x=1;  // c\n#define FOO 1")
    (str "none") 120).1
